import Mathlib

/-!
Verification of the scene-graph / animation core of the Rubiks repository.

The development shallowly embeds three components of the source:

* the keyframe animation engine (`src/animation/animation.py`):
  `Animation`, `AnimationClip`, `AnimationPlayer` and their operations,
  modelled generically over a linear ordered field `α` (the source uses
  Python floats; witnesses instantiate `α := ℚ`, the rotation library
  instantiates `α := ℝ`).  Python's stable `list.sort(key=time)` is
  modelled by the stable `List.insertionSort` on the time key.
* the transform hierarchy (`src/scene_object.py`): mutable nodes with
  parent/child links and dirty-flagged transform caches, modelled as an
  explicit state over an id type `ι`, with fuel for the unbounded
  recursions of the source (any fuel larger than the relevant depth
  agrees with the Python behaviour).
* the rotation library (`src/datatypes/quaternion.py`,
  `src/datatypes/transform.py`) over `ℝ`.
-/

namespace Rubiks

/-- 3-vector, modelling the `3x1` numpy arrays used for translations,
axis-angle rotations and scale factors. -/
structure Vec3 (α : Type) where
  x : α
  y : α
  z : α
deriving DecidableEq, Repr

/-- Quaternion `w + xi + yj + zk`, modelling the `4x1` numpy array of
`src/datatypes/quaternion.py` (stored `[w, x, y, z]`). -/
structure Quaternion (α : Type) where
  w : α
  x : α
  y : α
  z : α
deriving DecidableEq, Repr

/-- The two pose representations of `src/datatypes/pose.py` as a tagged
union: `pose` is the axis-angle `Pose` (translation + axis-angle rotation
vector), `poseQuat` is `PoseQuat` (translation + quaternion). -/
inductive PoseValue (α : Type) where
  | pose (translation : Vec3 α) (rotation : Vec3 α)
  | poseQuat (translation : Vec3 α) (quaternion : Quaternion α)
deriving DecidableEq, Repr

/-- `true` iff the value is a `PoseQuat`. -/
def PoseValue.isQuat {α : Type} : PoseValue α → Bool
  | .pose _ _ => false
  | .poseQuat _ _ => true

section AnimationEngine

variable {α : Type} [LinearOrderedField α]

/-- Componentwise affine blend `v1 * (1 - t) + v2 * t`, as used for
translations and axis-angle rotations in `Animation.evaluate` and
`PoseQuat.interpolate`. -/
def lerpV (v1 v2 : Vec3 α) (t : α) : Vec3 α :=
  ⟨v1.x * (1 - t) + v2.x * t, v1.y * (1 - t) + v2.y * t, v1.z * (1 - t) + v2.z * t⟩

/-- Interpolation mode of a track (`InterpolationMode` literal in the source). -/
inductive InterpolationMode where
  | linear
  | step
  | smooth
deriving DecidableEq, Repr

/-- A keyframe: time plus pose (`Keyframe` dataclass).  The `time >= 0`
precondition of `__post_init__` is enforced in `Animation.add_keyframe`. -/
structure Keyframe (α : Type) where
  time : α
  pose : PoseValue α
deriving DecidableEq, Repr

/-- A single animation track (`Animation` class): name, interpolation
mode, keyframe list and the `_sorted` lazy-sort flag. -/
structure Animation (α : Type) where
  name : String
  interpolation : InterpolationMode
  keyframes : List (Keyframe α)
  sorted : Bool
deriving DecidableEq, Repr

/-- `Animation.__init__`: empty keyframe list, `_sorted = True`. -/
def Animation.init (name : String) (interpolation : InterpolationMode) : Animation α :=
  ⟨name, interpolation, [], true⟩

/-- Time-key ordering on keyframes (the `key=lambda k: k.time` sort key). -/
def Keyframe.timeLE (k1 k2 : Keyframe α) : Prop := k1.time ≤ k2.time

instance : DecidableRel (Keyframe.timeLE (α := α)) := fun k1 k2 =>
  inferInstanceAs (Decidable (k1.time ≤ k2.time))

instance : IsTotal (Keyframe α) Keyframe.timeLE :=
  ⟨fun k1 k2 => le_total k1.time k2.time⟩

instance : IsTrans (Keyframe α) Keyframe.timeLE :=
  ⟨fun _ _ _ h1 h2 => le_trans h1 h2⟩

/-- `Animation.add_keyframe`: appends a keyframe and clears the sorted
flag; the `Keyframe` constructor rejects negative times. -/
def Animation.add_keyframe (a : Animation α) (time : α) (pose : PoseValue α) :
    Except String (Animation α) :=
  if time < 0 then .error "Keyframe time must be >= 0"
  else .ok { a with keyframes := a.keyframes ++ [⟨time, pose⟩], sorted := false }

/-- Sequentially add several `(time, pose)` keyframes. -/
def Animation.add_keyframes (a : Animation α) : List (α × PoseValue α) → Except String (Animation α)
  | [] => .ok a
  | (t, p) :: rest =>
    match a.add_keyframe t p with
    | .ok a' => a'.add_keyframes rest
    | .error e => .error e

/-- `Animation._ensure_sorted`: lazily sort the keyframes by time.
Python's `list.sort` is a stable sort by the time key; it is modelled by
the stable `List.insertionSort`. -/
def Animation.ensure_sorted (a : Animation α) : Animation α :=
  if a.sorted then a
  else { a with keyframes := a.keyframes.insertionSort Keyframe.timeLE, sorted := true }

/-- `Animation.get_duration`: `0` when empty, else the last (time-sorted)
keyframe's time. -/
def Animation.get_duration (a : Animation α) : α :=
  if a.keyframes = [] then 0
  else
    match a.ensure_sorted.keyframes.getLast? with
    | some k => k.time
    | none => 0

/-- The linear scan of `_find_surrounding_keyframes` over consecutive
pairs: the first pair with `kf_before.time ≤ time ≤ kf_after.time` yields
the bracket and its normalized parameter (`0` when the bracket duration
is below `1e-10`). -/
def Animation.scan_pairs : List (Keyframe α) → α → Option (Keyframe α × Keyframe α × α)
  | k1 :: k2 :: rest, time =>
    if k1.time ≤ time ∧ time ≤ k2.time then
      some (k1, k2,
        if k2.time - k1.time < 1 / 10 ^ 10 then 0 else (time - k1.time) / (k2.time - k1.time))
    else Animation.scan_pairs (k2 :: rest) time
  | _, _ => none

/-- `Animation._find_surrounding_keyframes` on the (already sorted)
keyframe list.  `none` for an empty list; `inl kf` models Python
returning the same keyframe object twice (the boundary clamp cases, where
`kf_before is kf_after`); `inr (before, after, t)` models a genuine
bracketing pair of distinct list entries. -/
def Animation.find_surrounding_keyframes (kfs : List (Keyframe α)) (time : α) :
    Option (Keyframe α ⊕ Keyframe α × Keyframe α × α) :=
  match kfs with
  | [] => none
  | k :: ks =>
    let last := (k :: ks).getLast (List.cons_ne_nil k ks)
    if time ≤ k.time then some (.inl k)
    else if last.time ≤ time then some (.inl last)
    else
      match Animation.scan_pairs (k :: ks) time with
      | some r => some (.inr r)
      | none => some (.inl last)

/-- `Animation._ease_in_out`: the smoothstep curve `3t² - 2t³`. -/
def Animation.ease_in_out (t : α) : α := t * t * (3 - 2 * t)

variable (slerpFn : Quaternion α → Quaternion α → α → Quaternion α)

/-- `Animation.evaluate`.  The first component is the returned value
(`None`, a pose, or the raised `TypeError` for mixed representations);
the second component is the track after the call (the only mutation the
source performs during evaluation is the lazy sort in
`_ensure_sorted`).  Quaternion-pose rotation blending delegates to
`slerp` from the quaternion module, abstracted here as `slerpFn` (the
real-number instantiation is `Rubiks.slerp` below); translation blending
is the componentwise `lerpV` of `PoseQuat.interpolate`. -/
def Animation.evaluate (a : Animation α) (time : α) :
    Except String (Option (PoseValue α)) × Animation α :=
  if a.keyframes = [] then (.ok none, a)
  else
    let a' := a.ensure_sorted
    match Animation.find_surrounding_keyframes a'.keyframes time with
    | none => (.ok none, a')
    | some (.inl kf) => (.ok (some kf.pose), a')
    | some (.inr (kb, ka, t)) =>
      if a.interpolation = .step then
        (.ok (some (if t < 1 / 2 then kb.pose else ka.pose)), a')
      else
        let u := if a.interpolation = .smooth then Animation.ease_in_out t else t
        match kb.pose, ka.pose with
        | .pose t1 r1, .pose t2 r2 =>
          (.ok (some (.pose (lerpV t1 t2 u) (lerpV r1 r2 u))), a')
        | .poseQuat t1 q1, .poseQuat t2 q2 =>
          (.ok (some (.poseQuat (lerpV t1 t2 u) (slerpFn q1 q2 u))), a')
        | _, _ => (.error "Cannot interpolate between different pose types", a')

/-- `AnimationClip`: named animation tracks (the `animations` dict,
modelled as an association list in insertion order). -/
structure AnimationClip (α : Type) where
  name : String
  animations : List (String × Animation α)
deriving DecidableEq, Repr

/-- `AnimationClip.get_duration`: `0` with no tracks, else the maximum
track duration. -/
def AnimationClip.get_duration (c : AnimationClip α) : α :=
  match c.animations.map (fun na => na.2.get_duration) with
  | [] => 0
  | d :: ds => ds.foldl max d

/-- `AnimationPlayer`: playback state over one clip. -/
structure AnimationPlayer (α : Type) where
  clip : AnimationClip α
  loop : Bool
  current_time : α
  playing : Bool
  speed : α
deriving DecidableEq, Repr

/-- `AnimationPlayer.__init__`: time `0`, not playing, speed `1`. -/
def AnimationPlayer.init (clip : AnimationClip α) (loop : Bool) : AnimationPlayer α :=
  ⟨clip, loop, 0, false, 1⟩

/-- Python's float `%` operation: `a - b * ⌊a / b⌋`. -/
def pymod [FloorRing α] (a b : α) : α := a - b * ⌊a / b⌋

/-- `AnimationPlayer.is_finished`: false for looping players, else
whether the current time has reached the clip duration. -/
def AnimationPlayer.is_finished (p : AnimationPlayer α) : Bool :=
  if p.loop then false
  else if p.clip.get_duration ≤ p.current_time then true else false

/-- `AnimationPlayer.update`: no-op unless playing; advances time by
`delta_time * speed`; with positive duration, looping players wrap with
Python `%`, non-looping players clamp to the duration and stop. -/
def AnimationPlayer.update [FloorRing α] (p : AnimationPlayer α) (delta_time : α) :
    AnimationPlayer α :=
  if p.playing = false then p
  else
    let ct := p.current_time + delta_time * p.speed
    let d := p.clip.get_duration
    if 0 < d then
      if p.loop then { p with current_time := pymod ct d }
      else if d ≤ ct then { p with current_time := d, playing := false }
      else { p with current_time := ct }
    else { p with current_time := ct }

end AnimationEngine

section SceneGraph

/-!
Embedding of `src/scene_object.py`.  A Python heap of `SceneObject`s is
modelled as a `SceneState` over an id type `ι`; each mutating method
becomes a function on states.  The unbounded walks of the source (the
ancestor walk of `_would_create_cycle`, the recursions of
`mark_transform_dirty` and `get_world_transform`) take a fuel argument:
for any state whose relevant chains are shorter than the fuel, the
fuelled functions agree with the Python code.  The local transform is a
function of the node's pose through the abstract `localM` (the source's
`transform.pose_to_matrix`); the transform codomain `M` only needs a
multiplication and a unit, exactly what `get_world_transform` uses.
-/

variable {ι P M : Type} [DecidableEq ι] [Mul M] [One M]

/-- The mutable fields of all `SceneObject`s: parent link, children list,
pose, and the two dirty-flagged transform caches. -/
structure SceneState (ι P M : Type) where
  parent : ι → Option ι
  children : ι → List ι
  pose : ι → P
  local_dirty : ι → Bool
  world_dirty : ι → Bool
  local_cache : ι → Option M
  world_cache : ι → Option M

/-- `k`-fold parent step: `iter_parent s k n` is the `k`-th ancestor of
`n` (`none` once the chain has ended). -/
def iter_parent (s : SceneState ι P M) : ℕ → ι → Option ι
  | 0, n => some n
  | k + 1, n =>
    match s.parent n with
    | none => none
    | some p => iter_parent s k p

/-- Every parent chain dies out within `F` steps (acyclicity bound). -/
def ChainBound (s : SceneState ι P M) (F : ℕ) : Prop :=
  ∀ n, iter_parent s F n = none

/-- `SceneObject._would_create_cycle`: walk up the candidate parent's
chain looking for `self`.  `fuel` bounds the `while` loop. -/
def would_create_cycle (s : SceneState ι P M) (self : ι) :
    ℕ → Option ι → Bool
  | _, none => false
  | 0, some _ => false
  | fuel + 1, some c =>
    if c = self then true else would_create_cycle s self fuel (s.parent c)

/-- Set both dirty flags of one node (the first two statements of
`mark_transform_dirty`). -/
def set_dirty_flags (s : SceneState ι P M) (n : ι) : SceneState ι P M :=
  { s with
    local_dirty := Function.update s.local_dirty n true
    world_dirty := Function.update s.world_dirty n true }

/-- `SceneObject.mark_transform_dirty`: set both flags, then recurse into
every child (the `for child in self.children` loop is the fold). -/
def mark_transform_dirty : ℕ → SceneState ι P M → ι → SceneState ι P M
  | 0, s, _ => s
  | fuel + 1, s, n =>
    (s.children n).foldl (mark_transform_dirty fuel) (set_dirty_flags s n)

/-- `SceneObject.set_pose`: store the pose and mark the subtree dirty. -/
def set_pose (fuel : ℕ) (s : SceneState ι P M) (n : ι) (p : P) : SceneState ι P M :=
  mark_transform_dirty fuel { s with pose := Function.update s.pose n p } n

/-- `SceneObject.set_parent`.  The cycle check precedes every mutation,
exactly as in the source, so the error case returns the untouched state.
On success: remove `self` from the old parent's children (first
occurrence, guarded by membership), set the parent field, append `self`
to the new parent's children unless already present, and mark the
subtree dirty. -/
def set_parent (fuel : ℕ) (s : SceneState ι P M) (self : ι) (p : Option ι) :
    Except String Unit × SceneState ι P M :=
  if would_create_cycle s self fuel p then
    (.error "Setting parent would create a cycle", s)
  else
    let s1 :=
      match s.parent self with
      | some old =>
        if self ∈ s.children old then
          { s with children := Function.update s.children old ((s.children old).erase self) }
        else s
      | none => s
    let s2 := { s1 with parent := Function.update s1.parent self p }
    let s3 :=
      match p with
      | some q =>
        if self ∈ s2.children q then s2
        else { s2 with children := Function.update s2.children q (s2.children q ++ [self]) }
      | none => s2
    (.ok (), mark_transform_dirty fuel s3 self)

variable (localM : P → M)

/-- `SceneObject.get_local_transform`: recompute `pose_to_matrix` of the
pose when dirty (and fill the cache), else return the cache. -/
def get_local_transform (s : SceneState ι P M) (n : ι) : M × SceneState ι P M :=
  if s.local_dirty n then
    let m := localM (s.pose n)
    (m, { s with
            local_cache := Function.update s.local_cache n (some m)
            local_dirty := Function.update s.local_dirty n false })
  else ((s.local_cache n).getD 1, s)

/-- `SceneObject.get_world_transform`: when dirty, recompute as the
parent's world transform times the local transform (root: the local
transform), fill the cache and clear the flag; else return the cache. -/
def get_world_transform : ℕ → SceneState ι P M → ι → M × SceneState ι P M
  | 0, s, _ => (1, s)
  | fuel + 1, s, n =>
    if s.world_dirty n then
      match get_local_transform localM s n with
      | (lm, s1) =>
        match s1.parent n with
        | none =>
          (lm, { s1 with
                   world_cache := Function.update s1.world_cache n (some lm)
                   world_dirty := Function.update s1.world_dirty n false })
        | some p =>
          match get_world_transform fuel s1 p with
          | (pw, s2) =>
            (pw * lm, { s2 with
                          world_cache := Function.update s2.world_cache n (some (pw * lm))
                          world_dirty := Function.update s2.world_dirty n false })
    else ((s.world_cache n).getD 1, s)

/-- The cache-free world transform: the product of the local transforms
along the ancestor chain (what `get_world_transform` computes when every
cache is cold).  `fuel` bounds the chain; it is stable once the chain has
died out. -/
def world_spec : ℕ → SceneState ι P M → ι → M
  | 0, _, _ => 1
  | fuel + 1, s, n =>
    match s.parent n with
    | none => localM (s.pose n)
    | some p => world_spec fuel s p * localM (s.pose n)

/-- Invariant (2) of the hierarchy: a node is in a parent's children list
iff that parent is its parent field. -/
def Consistent (s : SceneState ι P M) : Prop :=
  ∀ n p, s.parent n = some p ↔ n ∈ s.children p

/-- Cache coherence: every clean cache holds the value its recomputation
would produce (`F` is a global chain bound making `world_spec` stable). -/
def Coherent (s : SceneState ι P M) (F : ℕ) : Prop :=
  (∀ n, s.local_dirty n = false → s.local_cache n = some (localM (s.pose n))) ∧
  (∀ n, s.world_dirty n = false → s.world_cache n = some (world_spec localM F s n))

/-- `ReachDown c a n k`: `n` is reachable from `a` in exactly `k`
child-list steps (so `n` is a depth-`k` descendant of `a`). -/
inductive ReachDown (c : ι → List ι) : ι → ι → ℕ → Prop where
  | refl (a : ι) : ReachDown c a a 0
  | step {a b n : ι} {k : ℕ} (hb : b ∈ c a) (h : ReachDown c b n k) :
      ReachDown c a n (k + 1)

end SceneGraph

section RotationLibrary

/-!
Embedding of `src/datatypes/quaternion.py` and
`src/datatypes/transform.py` over `ℝ` (the source computes with Python
floats; the embedding uses exact reals, so the floating tolerances of the
spec become exact statements).
-/

open Real

/-- `np.clip x lo hi`. -/
noncomputable def clip (x lo hi : ℝ) : ℝ := min hi (max lo x)

/-- Euclidean norm of a 3-vector (`np.linalg.norm`). -/
noncomputable def vnorm (v : Vec3 ℝ) : ℝ := Real.sqrt (v.x ^ 2 + v.y ^ 2 + v.z ^ 2)

/-- Scalar multiple of a 3-vector (builds the axis-angle vector
`axis * angle`). -/
def smulV (c : ℝ) (v : Vec3 ℝ) : Vec3 ℝ := ⟨c * v.x, c * v.y, c * v.z⟩

/-- `Quaternion.identity`. -/
def Quaternion.identity : Quaternion ℝ := ⟨1, 0, 0, 0⟩

/-- `Quaternion.from_axis_angle`: normalize the axis; degenerate axes
(norm below `1e-10`) give the identity; otherwise
`(cos(angle/2), sin(angle/2)·axis)`. -/
noncomputable def Quaternion.from_axis_angle (axis : Vec3 ℝ) (angle : ℝ) : Quaternion ℝ :=
  let n := vnorm axis
  if n < 1 / 10 ^ 10 then Quaternion.identity
  else
    let half := angle / 2
    ⟨Real.cos half, axis.x / n * Real.sin half, axis.y / n * Real.sin half,
      axis.z / n * Real.sin half⟩

/-- `Quaternion.from_axis_angle_vector`: magnitude is the angle,
direction the axis; magnitudes below `1e-10` give the identity. -/
noncomputable def Quaternion.from_axis_angle_vector (v : Vec3 ℝ) : Quaternion ℝ :=
  let angle := vnorm v
  if angle < 1 / 10 ^ 10 then Quaternion.identity
  else Quaternion.from_axis_angle ⟨v.x / angle, v.y / angle, v.z / angle⟩ angle

/-- Norm of a quaternion. -/
noncomputable def Quaternion.norm (q : Quaternion ℝ) : ℝ :=
  Real.sqrt (q.w ^ 2 + q.x ^ 2 + q.y ^ 2 + q.z ^ 2)

/-- `Quaternion.to_axis_angle`: normalize first (near-zero quaternions
give `(+Z, 0)`), take `angle = 2·acos(clip w)`; when `sin(angle/2)` is
within `1e-10` of zero the axis is the `+Z` fallback. -/
noncomputable def Quaternion.to_axis_angle (q : Quaternion ℝ) : Vec3 ℝ × ℝ :=
  let n := q.norm
  if n < 1 / 10 ^ 10 then (⟨0, 0, 1⟩, 0)
  else
    let w := q.w / n
    let x := q.x / n
    let y := q.y / n
    let z := q.z / n
    let angle := 2 * Real.arccos (clip w (-1) 1)
    let sin_half := Real.sin (angle / 2)
    if |sin_half| < 1 / 10 ^ 10 then (⟨0, 0, 1⟩, angle)
    else (⟨x / sin_half, y / sin_half, z / sin_half⟩, angle)

/-- `Quaternion.normalize`: identity for near-zero norm, else divide
componentwise by the norm. -/
noncomputable def Quaternion.normalize (q : Quaternion ℝ) : Quaternion ℝ :=
  let n := q.norm
  if n < 1 / 10 ^ 10 then Quaternion.identity
  else ⟨q.w / n, q.x / n, q.y / n, q.z / n⟩

/-- `Quaternion.dot`. -/
def Quaternion.dot (q1 q2 : Quaternion ℝ) : ℝ :=
  q1.w * q2.w + q1.x * q2.x + q1.y * q2.y + q1.z * q2.z

/-- Componentwise negation (`Quaternion(w=-q.w, ...)` in `slerp`/`lerp`). -/
def Quaternion.negate (q : Quaternion ℝ) : Quaternion ℝ := ⟨-q.w, -q.x, -q.y, -q.z⟩

/-- Componentwise scaling of the data array (`q.data * c`). -/
def Quaternion.scale (c : ℝ) (q : Quaternion ℝ) : Quaternion ℝ :=
  ⟨q.w * c, q.x * c, q.y * c, q.z * c⟩

/-- Componentwise sum of the data arrays. -/
def Quaternion.add (q1 q2 : Quaternion ℝ) : Quaternion ℝ :=
  ⟨q1.w + q2.w, q1.x + q2.x, q1.y + q2.y, q1.z + q2.z⟩

/-- `slerp` from `src/datatypes/quaternion.py`: clamp `t` to `[0,1]`,
negate `q2` (and the dot) when the dot is negative, fall back to
normalized linear interpolation when `dot > 0.9995`, else the standard
spherical weights; always renormalized. -/
noncomputable def slerp (q1 q2 : Quaternion ℝ) (t : ℝ) : Quaternion ℝ :=
  let t' := clip t 0 1
  let d0 := q1.dot q2
  let q2' := if d0 < 0 then q2.negate else q2
  let d := if d0 < 0 then -d0 else d0
  if 9995 / 10000 < d then
    ((Quaternion.scale (1 - t') q1).add (Quaternion.scale t' q2')).normalize
  else
    let theta0 := Real.arccos (clip d (-1) 1)
    let theta := theta0 * t'
    let s1 := Real.cos theta - d * Real.sin theta / Real.sin theta0
    let s2 := Real.sin theta / Real.sin theta0
    ((Quaternion.scale s1 q1).add (Quaternion.scale s2 q2')).normalize

/-- `axis_angle_to_rotation_matrix`: Rodrigues' formula
`I + sin(θ)K + (1-cos(θ))K²`; zero rotations (norm below `1e-10`) give
the identity. -/
noncomputable def axis_angle_to_rotation_matrix (r : Vec3 ℝ) : Matrix (Fin 3) (Fin 3) ℝ :=
  let angle := vnorm r
  if angle < 1 / 10 ^ 10 then 1
  else
    let ax := r.x / angle
    let ay := r.y / angle
    let az := r.z / angle
    let K : Matrix (Fin 3) (Fin 3) ℝ := !![0, -az, ay; az, 0, -ax; -ay, ax, 0]
    1 + Real.sin angle • K + (1 - Real.cos angle) • (K * K)

/-- `translation_to_matrix`: identity with the translation in the last
column. -/
def translation_to_matrix (t : Vec3 ℝ) : Matrix (Fin 4) (Fin 4) ℝ :=
  !![1, 0, 0, t.x; 0, 1, 0, t.y; 0, 0, 1, t.z; 0, 0, 0, 1]

/-- `rotation_to_matrix`: the 3×3 rotation embedded in the upper-left of
a 4×4 identity. -/
noncomputable def rotation_to_matrix (r : Vec3 ℝ) : Matrix (Fin 4) (Fin 4) ℝ :=
  let R := axis_angle_to_rotation_matrix r
  !![R 0 0, R 0 1, R 0 2, 0;
     R 1 0, R 1 1, R 1 2, 0;
     R 2 0, R 2 1, R 2 2, 0;
     0, 0, 0, 1]

/-- `scaling_to_matrix`: diagonal scale matrix, identity for `None`. -/
def scaling_to_matrix (s : Option (Vec3 ℝ)) : Matrix (Fin 4) (Fin 4) ℝ :=
  match s with
  | none => 1
  | some v => !![v.x, 0, 0, 0; 0, v.y, 0, 0; 0, 0, v.z, 0; 0, 0, 0, 1]

/-- `compose_transform`: the hard-contract order `T × R × S`. -/
noncomputable def compose_transform (t r : Vec3 ℝ) (s : Option (Vec3 ℝ)) :
    Matrix (Fin 4) (Fin 4) ℝ :=
  translation_to_matrix t * rotation_to_matrix r * scaling_to_matrix s

end RotationLibrary

section ConcreteObjects

/-!
Concrete objects used to evaluate the embedded operations at specific
inputs (rational instances for the generic animation engine, a two-node
scene for the hierarchy).
-/

/-- An (arbitrary) interpolant instantiating the abstract quaternion
`slerpFn` parameter in concrete rational evaluations; the evaluation
claims hold for every interpolant. -/
def constSlerp {α : Type} : Quaternion α → Quaternion α → α → Quaternion α := fun q _ _ => q

/-- Axis-angle pose at the origin. -/
def poseO : PoseValue ℚ := .pose ⟨0, 0, 0⟩ ⟨0, 0, 0⟩

/-- Axis-angle pose translated one unit along x. -/
def poseX : PoseValue ℚ := .pose ⟨1, 0, 0⟩ ⟨0, 0, 0⟩

/-- Axis-angle pose translated one unit along y. -/
def poseY : PoseValue ℚ := .pose ⟨0, 1, 0⟩ ⟨0, 0, 0⟩

/-- Quaternion pose at the origin with the identity rotation. -/
def poseQI : PoseValue ℚ := .poseQuat ⟨0, 0, 0⟩ ⟨1, 0, 0, 0⟩

/-- Track mixing an axis-angle and a quaternion keyframe, step policy. -/
def trackMixedStep : Animation ℚ := ⟨"animation", .step, [⟨0, poseO⟩, ⟨1, poseQI⟩], false⟩

/-- Track mixing an axis-angle and a quaternion keyframe, linear policy. -/
def trackMixedLinear : Animation ℚ := ⟨"animation", .linear, [⟨0, poseO⟩, ⟨1, poseQI⟩], false⟩

/-- Track with keyframes at times `0` and `2` (the spec's clamping
example). -/
def track02 : Animation ℚ := ⟨"animation", .linear, [⟨0, poseO⟩, ⟨2, poseX⟩], false⟩

/-- Track with two distinct keyframes sharing time `0` (insertion order
`poseO` then `poseX`). -/
def trackDupTimes : Animation ℚ := ⟨"animation", .linear, [⟨0, poseO⟩, ⟨0, poseX⟩], false⟩

/-- Track whose last keyframe time (= duration) is `3`. -/
def trackDur3 : Animation ℚ := ⟨"a", .linear, [⟨3, poseO⟩], true⟩

/-- Clip of duration `3`. -/
def clipDur3 : AnimationClip ℚ := ⟨"clip", [("a", trackDur3)]⟩

/-- Looping player over `clipDur3` at time `0`, already playing. -/
def playerLoop3 : AnimationPlayer ℚ := ⟨clipDur3, true, 0, true, 1⟩

/-- Clip with no tracks. -/
def emptyClip : AnimationClip ℚ := ⟨"clip", []⟩

/-- Two-node scene: node `0` is the root, node `1` its child; every cache
cold.  Pose payloads are trivial and the transform codomain is `ℚ`. -/
def sceneTwo : SceneState (Fin 2) Unit ℚ where
  parent := fun n => if n = 1 then some 0 else none
  children := fun n => if n = 0 then [1] else []
  pose := fun _ => ()
  local_dirty := fun _ => true
  world_dirty := fun _ => true
  local_cache := fun _ => none
  world_cache := fun _ => none

/-- Trivial local-transform function for `sceneTwo`. -/
def localMQ : Unit → ℚ := fun _ => 1

end ConcreteObjects

/-! ## Theorems -/

section AnimationTheorems

variable {α : Type} [LinearOrderedField α]

theorem ensure_sorted_keyframes_eq_nil (a : Animation α) (h : a.keyframes = []) :
    a.ensure_sorted.keyframes = [] := by
  unfold Animation.ensure_sorted
  split
  · exact h
  · simp [h]

theorem ensure_sorted_keyframes_perm (a : Animation α) :
    a.ensure_sorted.keyframes.Perm a.keyframes := by
  unfold Animation.ensure_sorted
  split
  · exact List.Perm.refl _
  · exact List.perm_insertionSort _ _

theorem ensure_sorted_interpolation (a : Animation α) :
    a.ensure_sorted.interpolation = a.interpolation := by
  unfold Animation.ensure_sorted
  split <;> rfl

theorem find_surrounding_le_head (k : Keyframe α) (ks : List (Keyframe α)) (time : α)
    (h : time ≤ k.time) :
    Animation.find_surrounding_keyframes (k :: ks) time = some (.inl k) := by
  simp [Animation.find_surrounding_keyframes, h]

theorem find_surrounding_ge_last (k : Keyframe α) (ks : List (Keyframe α)) (time : α)
    (h1 : ¬ time ≤ k.time)
    (h2 : ((k :: ks).getLast (List.cons_ne_nil k ks)).time ≤ time) :
    Animation.find_surrounding_keyframes (k :: ks) time
      = some (.inl ((k :: ks).getLast (List.cons_ne_nil k ks))) := by
  simp [Animation.find_surrounding_keyframes, h1, h2]

theorem evaluate_of_find_inl (slerpFn : Quaternion α → Quaternion α → α → Quaternion α)
    (a : Animation α) (time : α) (kf : Keyframe α) (hne : a.keyframes ≠ [])
    (hf : Animation.find_surrounding_keyframes a.ensure_sorted.keyframes time
      = some (.inl kf)) :
    a.evaluate slerpFn time = (.ok (some kf.pose), a.ensure_sorted) := by
  simp [Animation.evaluate, hne, hf]

theorem evaluate_of_find_inr_step_after (slerpFn : Quaternion α → Quaternion α → α → Quaternion α)
    (a : Animation α) (time : α) (kb ka : Keyframe α) (t : α) (hne : a.keyframes ≠ [])
    (hstep : a.interpolation = .step)
    (hf : Animation.find_surrounding_keyframes a.ensure_sorted.keyframes time
      = some (.inr (kb, ka, t)))
    (hlt : ¬ t < 1 / 2) :
    a.evaluate slerpFn time = (.ok (some ka.pose), a.ensure_sorted) := by
  simp [Animation.evaluate, hne, hf, hstep]
  intro h
  exact absurd h (by simpa using hlt)

/-- C8 (amended): for every non-empty track and every policy, evaluation
at a time at or before the first (time-sorted) keyframe's time returns
exactly the first keyframe's pose; at a time at or after the last
keyframe's time that is also strictly after the first keyframe's time,
it returns exactly the last keyframe's pose.  The only point removed
from the original claim is a query exactly at the shared time of a track
whose keyframes all share one time: there both boundary conditions hold
and the first keyframe's pose is returned. -/
theorem evaluate_clamps (slerpFn : Quaternion α → Quaternion α → α → Quaternion α)
    (a : Animation α) (time : α) (k1 k2 : Keyframe α)
    (h1 : a.ensure_sorted.keyframes.head? = some k1)
    (h2 : a.ensure_sorted.keyframes.getLast? = some k2) :
    (time ≤ k1.time → (a.evaluate slerpFn time).1 = .ok (some k1.pose)) ∧
    (k1.time < time → k2.time ≤ time →
      (a.evaluate slerpFn time).1 = .ok (some k2.pose)) := by
  cases hl : a.ensure_sorted.keyframes with
  | nil => rw [hl] at h1; cases h1
  | cons k ks =>
    rw [hl] at h1 h2
    have hk1 : k = k1 := by simpa using h1
    subst hk1
    have hlast : (k :: ks).getLast (List.cons_ne_nil k ks) = k2 := by
      have := List.getLast?_eq_getLast (k :: ks) (List.cons_ne_nil k ks)
      rw [this] at h2
      simpa using h2
    have hne : a.keyframes ≠ [] := by
      intro h
      have := ensure_sorted_keyframes_eq_nil a h
      rw [hl] at this
      cases this
    constructor
    · intro ht
      have hf : Animation.find_surrounding_keyframes a.ensure_sorted.keyframes time
          = some (.inl k) := by
        rw [hl]; exact find_surrounding_le_head k ks time ht
      rw [evaluate_of_find_inl slerpFn a time k hne hf]
    · intro hlt hge
      have hnle : ¬ time ≤ k.time := not_le.mpr hlt
      have hf : Animation.find_surrounding_keyframes a.ensure_sorted.keyframes time
          = some (.inl k2) := by
        rw [hl, ← hlast]
        exact find_surrounding_ge_last k ks time hnle (by rw [hlast]; exact hge)
      rw [evaluate_of_find_inl slerpFn a time k2 hne hf]

/-- Witness for C8: the spec's own example, keyframes at times 0 and 2:
evaluation at -1 returns the time-0 pose and evaluation at 5 the time-2
pose; additionally, on the track whose two keyframes share time 0, a
query strictly after that time (t = 5) returns the last keyframe's
pose. -/
theorem evaluate_clamps_witness :
    track02.ensure_sorted.keyframes.head? = some ⟨0, poseO⟩ ∧
    track02.ensure_sorted.keyframes.getLast? = some ⟨2, poseX⟩ ∧
    (track02.evaluate constSlerp (-1)).1 = .ok (some poseO) ∧
    (track02.evaluate constSlerp 5).1 = .ok (some poseX) ∧
    (trackDupTimes.evaluate constSlerp 5).1 = .ok (some poseX) := by
  have h1 := evaluate_clamps constSlerp track02 (-1) ⟨0, poseO⟩ ⟨2, poseX⟩
    (by decide) (by decide)
  have h2 := evaluate_clamps constSlerp track02 5 ⟨0, poseO⟩ ⟨2, poseX⟩
    (by decide) (by decide)
  have h3 := evaluate_clamps constSlerp trackDupTimes 5 ⟨0, poseO⟩ ⟨0, poseX⟩
    (by decide) (by decide)
  exact ⟨by decide, by decide, h1.1 (by norm_num), h2.2 (by norm_num) (by norm_num),
    h3.2 (by norm_num) (by norm_num)⟩

/-- Counterexample for C8 as stated: in the track with two distinct
keyframes both at time 0, the query time 0 is at (hence at-or-after) the
last sorted keyframe's time, yet evaluation returns the first keyframe's
pose, not the last one's. -/
theorem evaluate_clamps_counterexample :
    trackDupTimes.ensure_sorted.keyframes.getLast? = some ⟨0, poseX⟩ ∧
    ((⟨0, poseX⟩ : Keyframe ℚ).time ≤ (0 : ℚ)) ∧
    (trackDupTimes.evaluate constSlerp 0).1 = .ok (some poseO) ∧
    poseO ≠ poseX :=
  ⟨by decide, by decide, by rfl, by decide⟩

/-- C10: a non-looping player over a clip with no tracks (duration 0) is
finished immediately after construction, at current time 0, with `play()`
never called (not playing) and `update()` never run. -/
theorem is_finished_no_tracks (c : AnimationClip α) (h : c.animations = []) :
    c.get_duration = 0 ∧
    (AnimationPlayer.init c false).current_time = 0 ∧
    (AnimationPlayer.init c false).playing = false ∧
    (AnimationPlayer.init c false).is_finished = true := by
  have hd : c.get_duration = 0 := by simp [AnimationClip.get_duration, h]
  refine ⟨hd, rfl, rfl, ?_⟩
  simp [AnimationPlayer.is_finished, AnimationPlayer.init, hd]

/-- Witness for C10: the concrete empty clip. -/
theorem is_finished_no_tracks_witness :
    emptyClip.animations = [] ∧
    emptyClip.get_duration = 0 ∧
    (AnimationPlayer.init emptyClip false).current_time = 0 ∧
    (AnimationPlayer.init emptyClip false).playing = false ∧
    (AnimationPlayer.init emptyClip false).is_finished = true :=
  ⟨rfl, is_finished_no_tracks emptyClip rfl⟩

/-- C7: a playing player over a clip of positive duration advances its
time by `dt * speed` on `update dt`; a looping player wraps the advanced
time with Python's float `%` and remains playing; a non-looping player
whose advanced time reached or passed the duration clamps to exactly the
duration, stops playing, and `is_finished` becomes true. -/
theorem player_update_spec [FloorRing α] (p : AnimationPlayer α) (dt : α)
    (hp : p.playing = true) (hd : 0 < p.clip.get_duration) :
    (p.loop = true →
      p.update dt
        = { p with current_time := pymod (p.current_time + dt * p.speed) p.clip.get_duration }
      ∧ (p.update dt).playing = true)
    ∧ (p.loop = false → p.clip.get_duration ≤ p.current_time + dt * p.speed →
      p.update dt = { p with current_time := p.clip.get_duration, playing := false }
      ∧ (p.update dt).is_finished = true) := by
  have hnp : ¬ p.playing = false := by simp [hp]
  constructor
  · intro hl
    have he : p.update dt
        = { p with current_time := pymod (p.current_time + dt * p.speed) p.clip.get_duration } := by
      simp [AnimationPlayer.update, hnp, hd, hl]
    exact ⟨he, by rw [he]; exact hp⟩
  · intro hl hge
    have he : p.update dt = { p with current_time := p.clip.get_duration, playing := false } := by
      simp [AnimationPlayer.update, hnp, hd, hl, hge]
    refine ⟨he, ?_⟩
    rw [he]
    simp [AnimationPlayer.is_finished, hl]

/-- Witness for C7: the spec's looping example, duration 3, `update 3.5`
from time 0 yields current time `0.5` and the player keeps playing. -/
theorem player_update_spec_witness :
    playerLoop3.playing = true ∧ (0 : ℚ) < playerLoop3.clip.get_duration ∧
    playerLoop3.update (7 / 2)
      = { playerLoop3 with
            current_time := pymod (playerLoop3.current_time + 7 / 2 * playerLoop3.speed)
              playerLoop3.clip.get_duration } ∧
    (playerLoop3.update (7 / 2)).playing = true ∧
    (playerLoop3.update (7 / 2)).current_time = 1 / 2 := by
  have h := (player_update_spec playerLoop3 (7 / 2) rfl (by decide)).1 rfl
  refine ⟨rfl, by decide, h.1, h.2, ?_⟩
  rw [h.1]
  show pymod (playerLoop3.current_time + 7 / 2 * playerLoop3.speed)
      playerLoop3.clip.get_duration = 1 / 2
  have hd : playerLoop3.clip.get_duration = 3 := by decide
  rw [hd]
  show pymod ((0 : ℚ) + 7 / 2 * 1) 3 = 1 / 2
  unfold pymod
  have hf : ⌊((0 : ℚ) + 7 / 2 * 1) / 3⌋ = 1 := by
    rw [Int.floor_eq_iff]
    norm_num
  rw [hf]
  norm_num

/-- C6 (amended): when the bracketing keyframe pair found for a query
time holds poses of different representations, `evaluate` raises the
`TypeError` for the linear and smooth policies (the step policy snaps to
a keyframe before the type check and does not error); the track is left
logically unmodified: the post-call track is exactly the lazily
time-sorted track, whose keyframe list is a permutation of the original
and whose settings are unchanged. -/
theorem evaluate_mixed_types (slerpFn : Quaternion α → Quaternion α → α → Quaternion α)
    (a : Animation α) (time : α) (kb ka : Keyframe α) (u : α)
    (hf : Animation.find_surrounding_keyframes a.ensure_sorted.keyframes time
      = some (.inr (kb, ka, u)))
    (hmix : kb.pose.isQuat ≠ ka.pose.isQuat)
    (hpol : a.interpolation = .linear ∨ a.interpolation = .smooth) :
    (a.evaluate slerpFn time).1 = .error "Cannot interpolate between different pose types" ∧
    (a.evaluate slerpFn time).2 = a.ensure_sorted ∧
    (a.evaluate slerpFn time).2.keyframes.Perm a.keyframes ∧
    (a.evaluate slerpFn time).2.interpolation = a.interpolation := by
  have hne : a.keyframes ≠ [] := by
    intro h
    have h2 := ensure_sorted_keyframes_eq_nil a h
    rw [h2] at hf
    cases hf
  have hstep : ¬ a.interpolation = .step := by
    rcases hpol with h | h <;> simp [h]
  have he : a.evaluate slerpFn time
      = (.error "Cannot interpolate between different pose types", a.ensure_sorted) := by
    cases hkb : kb.pose with
    | pose t1 r1 =>
      cases hka : ka.pose with
      | pose t2 r2 => rw [hkb, hka] at hmix; simp [PoseValue.isQuat] at hmix
      | poseQuat t2 q2 => simp [Animation.evaluate, hne, hf, hstep, hkb, hka]
    | poseQuat t1 q1 =>
      cases hka : ka.pose with
      | pose t2 r2 => simp [Animation.evaluate, hne, hf, hstep, hkb, hka]
      | poseQuat t2 q2 => rw [hkb, hka] at hmix; simp [PoseValue.isQuat] at hmix
  rw [he]
  exact ⟨rfl, rfl, ensure_sorted_keyframes_perm a, ensure_sorted_interpolation a⟩

/-- Witness for C6: a linear track whose bracket at time 1/2 mixes an
axis-angle and a quaternion keyframe. -/
theorem evaluate_mixed_types_witness :
    Animation.find_surrounding_keyframes trackMixedLinear.ensure_sorted.keyframes (1 / 2)
      = some (.inr (⟨0, poseO⟩, ⟨1, poseQI⟩, 1 / 2)) ∧
    (⟨0, poseO⟩ : Keyframe ℚ).pose.isQuat ≠ (⟨1, poseQI⟩ : Keyframe ℚ).pose.isQuat ∧
    (trackMixedLinear.evaluate constSlerp (1 / 2)).1
      = .error "Cannot interpolate between different pose types" ∧
    (trackMixedLinear.evaluate constSlerp (1 / 2)).2.keyframes.Perm
      trackMixedLinear.keyframes := by
  have hf : Animation.find_surrounding_keyframes trackMixedLinear.ensure_sorted.keyframes
      ((1 : ℚ) / 2) = some (.inr (⟨0, poseO⟩, ⟨1, poseQI⟩, 1 / 2)) := by
    norm_num [trackMixedLinear, Animation.ensure_sorted, Animation.find_surrounding_keyframes,
      Animation.scan_pairs, List.insertionSort, List.orderedInsert, Keyframe.timeLE,
      List.getLast]
  have h := evaluate_mixed_types constSlerp trackMixedLinear (1 / 2)
    ⟨0, poseO⟩ ⟨1, poseQI⟩ (1 / 2) hf (by decide) (Or.inl rfl)
  exact ⟨hf, by decide, h.1, h.2.2.1⟩

/-- Counterexample for C6 as stated: under the step policy the same
mixed bracket does not raise; evaluation snaps to the after-keyframe's
pose and returns it successfully. -/
theorem evaluate_mixed_types_counterexample :
    Animation.find_surrounding_keyframes trackMixedStep.ensure_sorted.keyframes (1 / 2)
      = some (.inr (⟨0, poseO⟩, ⟨1, poseQI⟩, 1 / 2)) ∧
    (⟨0, poseO⟩ : Keyframe ℚ).pose.isQuat ≠ (⟨1, poseQI⟩ : Keyframe ℚ).pose.isQuat ∧
    trackMixedStep.interpolation = .step ∧
    (trackMixedStep.evaluate constSlerp (1 / 2)).1 = .ok (some poseQI) := by
  have hf : Animation.find_surrounding_keyframes trackMixedStep.ensure_sorted.keyframes
      ((1 : ℚ) / 2) = some (.inr (⟨0, poseO⟩, ⟨1, poseQI⟩, 1 / 2)) := by
    norm_num [trackMixedStep, Animation.ensure_sorted, Animation.find_surrounding_keyframes,
      Animation.scan_pairs, List.insertionSort, List.orderedInsert, Keyframe.timeLE,
      List.getLast]
  refine ⟨hf, by decide, rfl, ?_⟩
  have he := evaluate_of_find_inr_step_after constSlerp trackMixedStep (1 / 2)
    ⟨0, poseO⟩ ⟨1, poseQI⟩ (1 / 2) (by decide) rfl hf (by norm_num)
  rw [he]

theorem sorted_perm_eq_of_nodup_times :
    ∀ (l₁ l₂ : List (Keyframe α)), l₁.Perm l₂ → l₁.Sorted Keyframe.timeLE →
    l₂.Sorted Keyframe.timeLE → (l₁.map Keyframe.time).Nodup → l₁ = l₂ := by
  intro l₁
  induction l₁ with
  | nil =>
    intro l₂ hp _ _ _
    exact (hp.symm.eq_nil).symm ▸ rfl
  | cons k t₁ ih =>
    intro l₂ hp hs₁ hs₂ hn
    cases l₂ with
    | nil => exact absurd hp.eq_nil (List.cons_ne_nil _ _)
    | cons k' t₂ =>
      rcases List.sorted_cons.mp hs₁ with ⟨hk₁, hs₁'⟩
      rcases List.sorted_cons.mp hs₂ with ⟨hk₂, hs₂'⟩
      rw [List.map_cons, List.nodup_cons] at hn
      by_cases hkk : k = k'
      · subst hkk
        rw [ih t₂ hp.cons_inv hs₁' hs₂' hn.2]
      · exfalso
        have hk'mem : k' ∈ k :: t₁ := hp.mem_iff.mpr (List.mem_cons_self _ _)
        have hk'in : k' ∈ t₁ := by
          rcases List.mem_cons.mp hk'mem with h | h
          · exact absurd h.symm hkk
          · exact h
        have hkmem : k ∈ k' :: t₂ := hp.mem_iff.mp (List.mem_cons_self _ _)
        have hkin : k ∈ t₂ := by
          rcases List.mem_cons.mp hkmem with h | h
          · exact absurd h hkk
          · exact h
        have heq : k.time = k'.time := le_antisymm (hk₁ _ hk'in) (hk₂ _ hkin)
        exact hn.1 (heq ▸ List.mem_map_of_mem Keyframe.time hk'in)

theorem add_keyframes_ok :
    ∀ (ps : List (α × PoseValue α)) (a : Animation α), ps ≠ [] → (∀ x ∈ ps, 0 ≤ x.1) →
    a.add_keyframes ps
      = .ok ⟨a.name, a.interpolation,
          a.keyframes ++ ps.map (fun x => ⟨x.1, x.2⟩), false⟩ := by
  intro ps
  induction ps with
  | nil => intro a h; exact absurd rfl h
  | cons x rest ih =>
    intro a _ hpos
    obtain ⟨t, p⟩ := x
    have ht : ¬ t < 0 := not_lt.mpr (hpos (t, p) (List.mem_cons_self _ _))
    have hstep : a.add_keyframe t p
        = .ok { a with keyframes := a.keyframes ++ [⟨t, p⟩], sorted := false } := by
      simp [Animation.add_keyframe, ht]
    by_cases hr : rest = []
    · subst hr
      simp [Animation.add_keyframes, hstep]
    · have := ih { a with keyframes := a.keyframes ++ [⟨t, p⟩], sorted := false } hr
        (fun y hy => hpos y (List.mem_cons_of_mem _ hy))
      simp only [Animation.add_keyframes, hstep, this, List.map_cons, List.append_assoc,
        List.singleton_append]

theorem evaluate_congr (slerpFn : Quaternion α → Quaternion α → α → Quaternion α)
    (a₁ a₂ : Animation α) (time : α)
    (hne₁ : a₁.keyframes ≠ []) (hne₂ : a₂.keyframes ≠ [])
    (hint : a₁.interpolation = a₂.interpolation)
    (hsort : a₁.ensure_sorted = a₂.ensure_sorted) :
    (a₁.evaluate slerpFn time).1 = (a₂.evaluate slerpFn time).1 := by
  simp only [Animation.evaluate, if_neg hne₁, if_neg hne₂, hsort, hint]

/-- C9 (amended): for keyframes with pairwise-distinct times, the result
of `evaluate` does not depend on the order in which the keyframes were
added: adding any permutation of the `(time, pose)` pairs to a fresh
track and evaluating gives the same result. -/
theorem evaluate_insertion_order_invariant
    (slerpFn : Quaternion α → Quaternion α → α → Quaternion α)
    (name : String) (interp : InterpolationMode)
    (ps₁ ps₂ : List (α × PoseValue α)) (hperm : ps₁.Perm ps₂)
    (hnodup : (ps₁.map Prod.fst).Nodup) (hpos : ∀ x ∈ ps₁, 0 ≤ x.1) (time : α) :
    ((Animation.init name interp).add_keyframes ps₁).map (fun a => (a.evaluate slerpFn time).1)
    = ((Animation.init name interp).add_keyframes ps₂).map
        (fun a => (a.evaluate slerpFn time).1) := by
  by_cases hnil : ps₁ = []
  · subst hnil
    rw [hperm.symm.eq_nil]
  · have hnil₂ : ps₂ ≠ [] := fun h => hnil (List.Perm.eq_nil (h ▸ hperm))
    have hpos₂ : ∀ x ∈ ps₂, 0 ≤ x.1 := fun x hx => hpos x (hperm.mem_iff.mpr hx)
    rw [add_keyframes_ok ps₁ _ hnil hpos, add_keyframes_ok ps₂ _ hnil₂ hpos₂]
    simp only [Except.map, Animation.init, List.nil_append]
    congr 1
    have hmk : (ps₁.map fun x => (⟨x.1, x.2⟩ : Keyframe α)).Perm
        (ps₂.map fun x => (⟨x.1, x.2⟩ : Keyframe α)) := hperm.map _
    have hmapne : ps₁.map (fun x => (⟨x.1, x.2⟩ : Keyframe α)) ≠ [] := by
      simpa using hnil
    have hmapne₂ : ps₂.map (fun x => (⟨x.1, x.2⟩ : Keyframe α)) ≠ [] := by
      simpa using hnil₂
    have hs := List.sorted_insertionSort Keyframe.timeLE
      (ps₁.map fun x => (⟨x.1, x.2⟩ : Keyframe α))
    have hs₂ := List.sorted_insertionSort Keyframe.timeLE
      (ps₂.map fun x => (⟨x.1, x.2⟩ : Keyframe α))
    have hperm' : (List.insertionSort Keyframe.timeLE
        (ps₁.map fun x => (⟨x.1, x.2⟩ : Keyframe α))).Perm
        (List.insertionSort Keyframe.timeLE (ps₂.map fun x => (⟨x.1, x.2⟩ : Keyframe α))) :=
      ((List.perm_insertionSort _ _).trans hmk).trans (List.perm_insertionSort _ _).symm
    have htimes : ((List.insertionSort Keyframe.timeLE
        (ps₁.map fun x => (⟨x.1, x.2⟩ : Keyframe α))).map Keyframe.time).Nodup := by
      have h1 : ((List.insertionSort Keyframe.timeLE
          (ps₁.map fun x => (⟨x.1, x.2⟩ : Keyframe α))).map Keyframe.time).Perm
          (ps₁.map Prod.fst) := by
        have := (List.perm_insertionSort Keyframe.timeLE
          (ps₁.map fun x => (⟨x.1, x.2⟩ : Keyframe α))).map Keyframe.time
        rw [List.map_map] at this
        exact this
      exact h1.nodup_iff.mpr hnodup
    have hsorteq := sorted_perm_eq_of_nodup_times _ _ hperm' hs hs₂ htimes
    have hensure : (⟨name, interp, ps₁.map fun x => (⟨x.1, x.2⟩ : Keyframe α),
        false⟩ : Animation α).ensure_sorted
        = (⟨name, interp, ps₂.map fun x => (⟨x.1, x.2⟩ : Keyframe α),
            false⟩ : Animation α).ensure_sorted := by
      simp [Animation.ensure_sorted, hsorteq]
    exact evaluate_congr slerpFn
      ⟨name, interp, ps₁.map fun x => (⟨x.1, x.2⟩ : Keyframe α), false⟩
      ⟨name, interp, ps₂.map fun x => (⟨x.1, x.2⟩ : Keyframe α), false⟩
      time hmapne hmapne₂ rfl hensure

/-- Witness for C9: keyframes at times `[2, 0, 1]` added in that order
versus added sorted, evaluated at 1/2. -/
theorem evaluate_insertion_order_invariant_witness :
    [((2 : ℚ), poseO), (0, poseX), (1, poseY)].Perm [(0, poseX), (1, poseY), (2, poseO)] ∧
    ([((2 : ℚ), poseO), (0, poseX), (1, poseY)].map Prod.fst).Nodup ∧
    (∀ x ∈ [((2 : ℚ), poseO), (0, poseX), (1, poseY)], 0 ≤ x.1) ∧
    ((Animation.init "animation" .linear).add_keyframes
        [((2 : ℚ), poseO), (0, poseX), (1, poseY)]).map
          (fun a => (a.evaluate constSlerp (1 / 2)).1)
      = ((Animation.init "animation" .linear).add_keyframes
          [(0, poseX), (1, poseY), (2, poseO)]).map
            (fun a => (a.evaluate constSlerp (1 / 2)).1) := by
  refine ⟨by decide, by decide, by decide, ?_⟩
  exact evaluate_insertion_order_invariant constSlerp "animation" .linear _ _
    (by decide) (by decide) (by decide) (1 / 2)

/-- Counterexample for C9 as stated: two keyframes sharing time 0 with
different poses; the evaluation at time 0 depends on the insertion
order (the stable lazy sort preserves it). -/
theorem evaluate_insertion_order_counterexample :
    [((0 : ℚ), poseO), (0, poseX)].Perm [((0 : ℚ), poseX), (0, poseO)] ∧
    ((Animation.init "animation" .linear).add_keyframes
        [((0 : ℚ), poseO), (0, poseX)]).map (fun a => (a.evaluate constSlerp 0).1)
      ≠ ((Animation.init "animation" .linear).add_keyframes
          [((0 : ℚ), poseX), (0, poseO)]).map (fun a => (a.evaluate constSlerp 0).1) := by
  refine ⟨by decide, ?_⟩
  have h₁ : ((Animation.init "animation" InterpolationMode.linear).add_keyframes
      [((0 : ℚ), poseO), (0, poseX)]).map (fun a => (a.evaluate constSlerp 0).1)
      = .ok (.ok (some poseO)) := by rfl
  have h₂ : ((Animation.init "animation" InterpolationMode.linear).add_keyframes
      [((0 : ℚ), poseX), (0, poseO)]).map (fun a => (a.evaluate constSlerp 0).1)
      = .ok (.ok (some poseX)) := by rfl
  rw [h₁, h₂]
  intro h
  have : poseO = poseX := by
    injection h with h'
    injection h' with h''
    injection h''
  exact absurd this (by decide)

end AnimationTheorems

section SceneGraphTheorems

variable {ι P M : Type} [DecidableEq ι]

theorem foldl_invariant {σ β : Type _} (f : σ → β → σ) (Q : σ → Prop)
    (hstep : ∀ s b, Q s → Q (f s b)) : ∀ (l : List β) (s : σ), Q s → Q (l.foldl f s) := by
  intro l
  induction l with
  | nil => intro s h; exact h
  | cons x xs ih => intro s h; exact ih _ (hstep s x h)

theorem would_create_cycle_of_chain :
    ∀ (k fuel : ℕ) (s : SceneState ι P M) (self b : ι),
    iter_parent s k b = some self → k < fuel →
    would_create_cycle s self fuel (some b) = true := by
  intro k
  induction k with
  | zero =>
    intro fuel s self b hb hfuel
    have hbs : b = self := by simpa [iter_parent] using hb
    subst hbs
    cases fuel with
    | zero => omega
    | succ f => simp [would_create_cycle]
  | succ k ih =>
    intro fuel s self b hb hfuel
    cases hp : s.parent b with
    | none => simp [iter_parent, hp] at hb
    | some q =>
      simp only [iter_parent, hp] at hb
      cases fuel with
      | zero => omega
      | succ f =>
        by_cases hbs : b = self
        · simp [would_create_cycle, hbs]
        · simp only [would_create_cycle, if_neg hbs, hp]
          exact ih f s self q hb (by omega)

/-- C1: if node `a` appears in candidate parent `b`'s ancestor chain
(with `b` itself at position `k = 0`), then `set_parent a (some b)` fails
with the cycle-detected error before performing any mutation: the
returned state is exactly the pre-call state, so every node's parent
field and child list are unchanged. -/
theorem set_parent_cycle_rejected (s : SceneState ι P M) (a b : ι) (k fuel : ℕ)
    (hchain : iter_parent s k b = some a) (hfuel : k < fuel) :
    set_parent fuel s a (some b) = (.error "Setting parent would create a cycle", s) := by
  unfold set_parent
  rw [if_pos (would_create_cycle_of_chain k fuel s a b hchain hfuel)]

/-- Witness for C1: in the two-node scene (1 is a child of 0),
re-parenting the root 0 under its descendant 1 is rejected and the state
is untouched. -/
theorem set_parent_cycle_rejected_witness :
    iter_parent sceneTwo 1 1 = some 0 ∧ (1 : ℕ) < 3 ∧
    set_parent 3 sceneTwo 0 (some 1)
      = (.error "Setting parent would create a cycle", sceneTwo) := by
  refine ⟨by decide, by decide, ?_⟩
  exact set_parent_cycle_rejected sceneTwo 0 1 1 3 (by decide) (by decide)

theorem mark_transform_dirty_fields :
    ∀ (fuel : ℕ) (s : SceneState ι P M) (n : ι),
    (mark_transform_dirty fuel s n).parent = s.parent ∧
    (mark_transform_dirty fuel s n).children = s.children ∧
    (mark_transform_dirty fuel s n).pose = s.pose ∧
    (mark_transform_dirty fuel s n).local_cache = s.local_cache ∧
    (mark_transform_dirty fuel s n).world_cache = s.world_cache := by
  intro fuel
  induction fuel with
  | zero => intro s n; exact ⟨rfl, rfl, rfl, rfl, rfl⟩
  | succ f ih =>
    intro s n
    show ((s.children n).foldl (mark_transform_dirty f) (set_dirty_flags s n)).parent = s.parent
      ∧ _ ∧ _ ∧ _ ∧ _
    refine foldl_invariant (mark_transform_dirty f)
      (fun st => st.parent = s.parent ∧ st.children = s.children ∧ st.pose = s.pose ∧
        st.local_cache = s.local_cache ∧ st.world_cache = s.world_cache)
      ?_ _ _ ⟨rfl, rfl, rfl, rfl, rfl⟩
    intro st b hst
    obtain ⟨h1, h2, h3, h4, h5⟩ := ih st b
    exact ⟨h1.trans hst.1, h2.trans hst.2.1, h3.trans hst.2.2.1,
      h4.trans hst.2.2.2.1, h5.trans hst.2.2.2.2⟩

theorem mark_dirty_mono_world :
    ∀ (fuel : ℕ) (s : SceneState ι P M) (n m : ι),
    s.world_dirty m = true → (mark_transform_dirty fuel s n).world_dirty m = true := by
  intro fuel
  induction fuel with
  | zero => intro s n m h; exact h
  | succ f ih =>
    intro s n m h
    show ((s.children n).foldl (mark_transform_dirty f) (set_dirty_flags s n)).world_dirty m
      = true
    refine foldl_invariant (mark_transform_dirty f) (fun st => st.world_dirty m = true)
      (fun st b hst => ih st b m hst) _ _ ?_
    by_cases hmn : m = n <;> simp [set_dirty_flags, Function.update_apply, hmn, h]

theorem mark_dirty_mono_local :
    ∀ (fuel : ℕ) (s : SceneState ι P M) (n m : ι),
    s.local_dirty m = true → (mark_transform_dirty fuel s n).local_dirty m = true := by
  intro fuel
  induction fuel with
  | zero => intro s n m h; exact h
  | succ f ih =>
    intro s n m h
    show ((s.children n).foldl (mark_transform_dirty f) (set_dirty_flags s n)).local_dirty m
      = true
    refine foldl_invariant (mark_transform_dirty f) (fun st => st.local_dirty m = true)
      (fun st b hst => ih st b m hst) _ _ ?_
    by_cases hmn : m = n <;> simp [set_dirty_flags, Function.update_apply, hmn, h]

omit [DecidableEq ι] in
theorem reach_down_snoc {c : ι → List ι} {a m n : ι} {k : ℕ}
    (h : ReachDown c a m k) (hn : n ∈ c m) : ReachDown c a n (k + 1) := by
  induction h with
  | refl => exact ReachDown.step hn (ReachDown.refl _)
  | step hb _ ih => exact ReachDown.step hb (ih hn)

/-- Marking a node dirty marks every node reachable downward through the
children lists within the fuel bound (both flags). -/
theorem mark_dirty_reaches :
    ∀ (fuel : ℕ) (s : SceneState ι P M) (a n : ι) (k : ℕ),
    ReachDown s.children a n k → k < fuel →
    (mark_transform_dirty fuel s a).world_dirty n = true ∧
    (mark_transform_dirty fuel s a).local_dirty n = true := by
  intro fuel
  induction fuel with
  | zero => intro s a n k _ hk; omega
  | succ g ih =>
    intro s a n k hreach hk
    show ((s.children a).foldl (mark_transform_dirty g) (set_dirty_flags s a)).world_dirty n
        = true
      ∧ ((s.children a).foldl (mark_transform_dirty g) (set_dirty_flags s a)).local_dirty n
        = true
    cases hreach with
    | refl =>
      refine foldl_invariant (mark_transform_dirty g)
        (fun st => st.world_dirty a = true ∧ st.local_dirty a = true)
        (fun st b hst => ⟨mark_dirty_mono_world g st b a hst.1,
          mark_dirty_mono_local g st b a hst.2⟩) _ _ ?_
      constructor <;> simp [set_dirty_flags, Function.update_apply]
    | step hb hrest =>
      rename_i b k'
      have hk' : k' < g := by omega
      have main : ∀ (l : List ι) (st : SceneState ι P M), st.children = s.children →
          b ∈ l → (l.foldl (mark_transform_dirty g) st).world_dirty n = true ∧
            (l.foldl (mark_transform_dirty g) st).local_dirty n = true := by
        intro l
        induction l with
        | nil => intro st _ hbl; cases hbl
        | cons x xs ihl =>
          intro st hch hbl
          rcases List.mem_cons.mp hbl with hbx | hbxs
          · subst hbx
            have h1 : (mark_transform_dirty g st b).world_dirty n = true ∧
                (mark_transform_dirty g st b).local_dirty n = true := by
              refine ih st b n k' ?_ hk'
              rw [hch]
              exact hrest
            exact foldl_invariant (mark_transform_dirty g)
              (fun st' => st'.world_dirty n = true ∧ st'.local_dirty n = true)
              (fun st' c hst => ⟨mark_dirty_mono_world g st' c n hst.1,
                mark_dirty_mono_local g st' c n hst.2⟩) xs _ h1
          · refine ihl (mark_transform_dirty g st x) ?_ hbxs
            rw [(mark_transform_dirty_fields g st x).2.1, hch]
      exact main (s.children a) (set_dirty_flags s a) rfl hb

omit [DecidableEq ι] in
theorem reach_down_of_iter_parent (s : SceneState ι P M) (hc : Consistent s) :
    ∀ (k : ℕ) (n a : ι), iter_parent s k n = some a → ReachDown s.children a n k := by
  intro k
  induction k with
  | zero =>
    intro n a h
    have : n = a := by simpa [iter_parent] using h
    subst this
    exact ReachDown.refl n
  | succ k ih =>
    intro n a h
    cases hp : s.parent n with
    | none => simp [iter_parent, hp] at h
    | some p =>
      simp only [iter_parent, hp] at h
      exact reach_down_snoc (ih p a h) ((hc n p).mp hp)

omit [DecidableEq ι] in
theorem iter_parent_none_mono (s : SceneState ι P M) :
    ∀ (j k : ℕ) (n : ι), iter_parent s j n = none → j ≤ k → iter_parent s k n = none := by
  intro j
  induction j with
  | zero => intro k n h; simp [iter_parent] at h
  | succ j ih =>
    intro k n h hjk
    cases k with
    | zero => omega
    | succ k =>
      cases hp : s.parent n with
      | none => simp [iter_parent, hp]
      | some p =>
        simp only [iter_parent, hp] at h ⊢
        exact ih k p h (by omega)

omit [DecidableEq ι] in
theorem iter_parent_congr (s s' : SceneState ι P M) (hpar : s'.parent = s.parent) :
    ∀ (k : ℕ) (n : ι), iter_parent s' k n = iter_parent s k n := by
  intro k
  induction k with
  | zero => intro n; rfl
  | succ k ih =>
    intro n
    simp only [iter_parent, hpar]
    cases s.parent n with
    | none => rfl
    | some p => exact ih p

section WithLocalM

variable [Mul M] [One M] (localM : P → M)

omit [DecidableEq ι] in
theorem world_spec_ext (s s' : SceneState ι P M) (hpar : s'.parent = s.parent)
    (hpose : s'.pose = s.pose) :
    ∀ (F : ℕ) (n : ι), world_spec localM F s' n = world_spec localM F s n := by
  intro F
  induction F with
  | zero => intro n; rfl
  | succ F ih =>
    intro n
    simp only [world_spec, hpar, hpose]
    cases s.parent n with
    | none => rfl
    | some p =>
      show world_spec localM F s' p * localM (s.pose n)
        = world_spec localM F s p * localM (s.pose n)
      rw [ih p]

omit [DecidableEq ι] in
theorem world_spec_congr_chain (s s' : SceneState ι P M) (hpar : s'.parent = s.parent) :
    ∀ (F : ℕ) (n : ι), (∀ m k, iter_parent s k n = some m → s'.pose m = s.pose m) →
    world_spec localM F s' n = world_spec localM F s n := by
  intro F
  induction F with
  | zero => intro n _; rfl
  | succ F ih =>
    intro n hpose
    have hn : s'.pose n = s.pose n := hpose n 0 (by simp [iter_parent])
    simp only [world_spec, hpar, hn]
    cases hp : s.parent n with
    | none => rfl
    | some p =>
      show world_spec localM F s' p * localM (s.pose n)
        = world_spec localM F s p * localM (s.pose n)
      rw [ih p ?_]
      intro m k hmk
      refine hpose m (k + 1) ?_
      simp only [iter_parent, hp]
      exact hmk

omit [DecidableEq ι] in
theorem world_spec_stable (s : SceneState ι P M) :
    ∀ (j : ℕ) (n : ι) (F : ℕ), iter_parent s j n = none → j ≤ F →
    world_spec localM F s n = world_spec localM j s n := by
  intro j
  induction j with
  | zero => intro n F h; simp [iter_parent] at h
  | succ j ih =>
    intro n F h hjF
    cases F with
    | zero => omega
    | succ F =>
      simp only [world_spec]
      cases hp : s.parent n with
      | none => rfl
      | some p =>
        simp only [iter_parent, hp] at h
        show world_spec localM F s p * localM (s.pose n)
          = world_spec localM j s p * localM (s.pose n)
        rw [ih p F h (by omega)]

theorem get_local_transform_correct (s : SceneState ι P M) (F : ℕ) (n : ι)
    (hcoh : Coherent localM s F) :
    (get_local_transform localM s n).1 = localM (s.pose n) ∧
    Coherent localM (get_local_transform localM s n).2 F ∧
    (get_local_transform localM s n).2.parent = s.parent ∧
    (get_local_transform localM s n).2.pose = s.pose ∧
    (get_local_transform localM s n).2.children = s.children ∧
    (get_local_transform localM s n).2.world_dirty = s.world_dirty ∧
    (get_local_transform localM s n).2.world_cache = s.world_cache := by
  by_cases hd : s.local_dirty n
  · have hgeq : get_local_transform localM s n
        = (localM (s.pose n),
           { s with
               local_cache := Function.update s.local_cache n (some (localM (s.pose n)))
               local_dirty := Function.update s.local_dirty n false }) := by
      simp [get_local_transform, hd]
    rw [hgeq]
    refine ⟨rfl, ⟨?_, ?_⟩, rfl, rfl, rfl, rfl, rfl⟩
    · intro m hm
      by_cases hmn : m = n
      · subst hmn
        simp [Function.update_apply]
      · simp only [Function.update_apply, if_neg hmn] at hm ⊢
        exact hcoh.1 m hm
    · intro m hm
      simp only at hm ⊢
      rw [hcoh.2 m hm]
      have := world_spec_ext localM s
        { s with
            local_cache := Function.update s.local_cache n (some (localM (s.pose n)))
            local_dirty := Function.update s.local_dirty n false }
        rfl rfl F m
      rw [this]
  · have hc := hcoh.1 n (by simpa using hd)
    have hgeq : get_local_transform localM s n = (localM (s.pose n), s) := by
      simp [get_local_transform, hd, hc]
    rw [hgeq]
    exact ⟨rfl, hcoh, rfl, rfl, rfl, rfl, rfl⟩

/-- `get_world_transform` on a coherent state returns exactly the
cache-free `world_spec` value and leaves the state coherent with the
structural fields untouched (only caches and dirty flags change). -/
theorem get_world_transform_correct :
    ∀ (fuel : ℕ) (s : SceneState ι P M) (n : ι) (F k : ℕ),
    Coherent localM s F → ChainBound s F → iter_parent s k n = none → k ≤ fuel →
    (get_world_transform localM fuel s n).1 = world_spec localM F s n ∧
    Coherent localM (get_world_transform localM fuel s n).2 F ∧
    (get_world_transform localM fuel s n).2.parent = s.parent ∧
    (get_world_transform localM fuel s n).2.pose = s.pose ∧
    (get_world_transform localM fuel s n).2.children = s.children := by
  intro fuel
  induction fuel with
  | zero =>
    intro s n F k _ _ hk hkf
    have hk0 : k = 0 := by omega
    subst hk0
    simp [iter_parent] at hk
  | succ fuel ih =>
    intro s n F k hcoh hb hk hkf
    by_cases hd : s.world_dirty n
    · obtain ⟨hlv, hlcoh, hlpar, hlpose, hlch, hlwd, hlwc⟩ :=
        get_local_transform_correct localM s F n hcoh
      rcases hglt : get_local_transform localM s n with ⟨lm, s1⟩
      rw [hglt] at hlv hlcoh hlpar hlpose hlch hlwd hlwc
      simp only at hlv hlcoh hlpar hlpose hlch hlwd hlwc
      obtain ⟨k', rfl⟩ : ∃ k', k = k' + 1 := by
        cases k with
        | zero => simp [iter_parent] at hk
        | succ k' => exact ⟨k', rfl⟩
      obtain ⟨F', rfl⟩ : ∃ F', F = F' + 1 := by
        cases hF : F with
        | zero =>
          have h0 := hb n
          rw [hF] at h0
          simp [iter_parent] at h0
        | succ F' => exact ⟨F', rfl⟩
      cases hp : s1.parent n with
      | none =>
        have hpn : s.parent n = none := by rw [← hlpar]; exact hp
        have hgeq : get_world_transform localM (fuel + 1) s n
            = (lm, { s1 with
                       world_cache := Function.update s1.world_cache n (some lm)
                       world_dirty := Function.update s1.world_dirty n false }) := by
          simp only [get_world_transform, if_pos hd, hglt, hp]
        have hval : world_spec localM (F' + 1) s n = localM (s.pose n) := by
          simp [world_spec, hpn]
        rw [hgeq]
        refine ⟨by rw [hval, hlv], ⟨?_, ?_⟩, by simpa using hlpar,
          by simpa using hlpose, by simpa using hlch⟩
        · intro m hm
          simp only at hm ⊢
          have h2 := hlcoh.1 m hm
          rw [h2, hlpose]
        · intro m hm
          simp only [Function.update_apply] at hm ⊢
          have hws : ∀ q, world_spec localM (F' + 1)
              { s1 with
                  world_cache := Function.update s1.world_cache n (some lm)
                  world_dirty := Function.update s1.world_dirty n false } q
              = world_spec localM (F' + 1) s q := fun q =>
            world_spec_ext localM s _ (by simpa using hlpar) (by simpa using hlpose) _ q
          by_cases hmn : m = n
          · subst hmn
            simp only [if_pos rfl]
            rw [hws, hval, hlv]
            simp
          · rw [if_neg hmn] at hm
            rw [if_neg hmn]
            have hm2 : s.world_dirty m = false := by rw [← hlwd]; exact hm
            have h2 := hcoh.2 m hm2
            rw [← hlwc] at h2
            rw [h2, hws]
      | some p =>
        have hpn : s.parent n = some p := by rw [← hlpar]; exact hp
        have hk' : iter_parent s k' p = none := by
          simpa [iter_parent, hpn] using hk
        have hk1 : iter_parent s1 k' p = none := by
          rw [iter_parent_congr s s1 hlpar]
          exact hk'
        have hb1 : ChainBound s1 (F' + 1) := fun m => by
          rw [iter_parent_congr s s1 hlpar]
          exact hb m
        have hrec := ih s1 p (F' + 1) k' hlcoh hb1 hk1 (by omega)
        rcases hgw : get_world_transform localM fuel s1 p with ⟨pw, s2⟩
        rw [hgw] at hrec
        obtain ⟨hrv, hrcoh, hrpar, hrpose, hrch⟩ := hrec
        simp only at hrv hrcoh hrpar hrpose hrch
        have hgeq : get_world_transform localM (fuel + 1) s n
            = (pw * lm, { s2 with
                            world_cache := Function.update s2.world_cache n (some (pw * lm))
                            world_dirty := Function.update s2.world_dirty n false }) := by
          simp only [get_world_transform, if_pos hd, hglt, hp, hgw]
        have hFp : iter_parent s F' p = none := by
          have h0 := hb n
          simpa [iter_parent, hpn] using h0
        have hws1 : world_spec localM (F' + 1) s1 p = world_spec localM (F' + 1) s p :=
          world_spec_ext localM s s1 hlpar hlpose _ p
        have hstab : world_spec localM (F' + 1) s p = world_spec localM F' s p :=
          world_spec_stable localM s F' p (F' + 1) hFp (by omega)
        have hval : world_spec localM (F' + 1) s n = pw * lm := by
          have h0 : world_spec localM (F' + 1) s n
              = world_spec localM F' s p * localM (s.pose n) := by
            simp [world_spec, hpn]
          rw [h0, ← hstab, ← hws1, ← hrv, hlv]
        have hpar2 : s2.parent = s.parent := hrpar.trans hlpar
        have hpose2 : s2.pose = s.pose := hrpose.trans hlpose
        have hch2 : s2.children = s.children := hrch.trans hlch
        rw [hgeq]
        refine ⟨by rw [hval], ⟨?_, ?_⟩, by simpa using hpar2,
          by simpa using hpose2, by simpa using hch2⟩
        · intro m hm
          simp only at hm ⊢
          have h2 := hrcoh.1 m hm
          rw [h2, hpose2]
        · intro m hm
          simp only [Function.update_apply] at hm ⊢
          have hwsfin : ∀ q, world_spec localM (F' + 1)
              { s2 with
                  world_cache := Function.update s2.world_cache n (some (pw * lm))
                  world_dirty := Function.update s2.world_dirty n false } q
              = world_spec localM (F' + 1) s q := fun q =>
            world_spec_ext localM s _ (by simpa using hpar2) (by simpa using hpose2) _ q
          by_cases hmn : m = n
          · subst hmn
            simp only [if_pos rfl]
            rw [hwsfin, hval]
            simp
          · rw [if_neg hmn] at hm
            rw [if_neg hmn]
            have h2 := hrcoh.2 m hm
            rw [h2, hwsfin]
            congr 1
            exact world_spec_ext localM s s2 hpar2 hpose2 _ m
    · have hdf : s.world_dirty n = false := by simpa using hd
      have hc := hcoh.2 n hdf
      have hgeq : get_world_transform localM (fuel + 1) s n
          = (world_spec localM F s n, s) := by
        simp [get_world_transform, hd, hc]
      rw [hgeq]
      exact ⟨rfl, hcoh, rfl, rfl, rfl⟩

/-- `set_pose` preserves cache coherence: the recursive dirtying of
`mark_transform_dirty` reaches (through the children lists, using the
parent/child link consistency) every node whose world transform depends
on the mutated pose, so every cache still marked clean is still
correct. -/
theorem coherent_set_pose (s : SceneState ι P M) (F g : ℕ) (a : ι) (q : P)
    (hc : Consistent s) (hcoh : Coherent localM s F) (hb : ChainBound s F) (hgF : F ≤ g) :
    Coherent localM (set_pose g s a q) F := by
  have hF1 : 1 ≤ F := by
    by_contra h
    have hF0 : F = 0 := by omega
    have h0 := hb a
    rw [hF0] at h0
    simp [iter_parent] at h0
  have hfields := mark_transform_dirty_fields g
    { s with pose := Function.update s.pose a q } a
  constructor
  · intro m hm
    have hna : m ≠ a := by
      intro h
      subst h
      have ht := (mark_dirty_reaches g { s with pose := Function.update s.pose m q } m m 0
        (ReachDown.refl m) (by omega)).2
      rw [show set_pose g s m q
          = mark_transform_dirty g { s with pose := Function.update s.pose m q } m
          from rfl] at hm
      rw [ht] at hm
      cases hm
    have hmb : s.local_dirty m = false := by
      by_contra h
      have ht : s.local_dirty m = true := by simpa using h
      have := mark_dirty_mono_local g { s with pose := Function.update s.pose a q } a m ht
      rw [show set_pose g s a q
          = mark_transform_dirty g { s with pose := Function.update s.pose a q } a
          from rfl] at hm
      rw [this] at hm
      cases hm
    have hcache := hcoh.1 m hmb
    show (set_pose g s a q).local_cache m = some (localM ((set_pose g s a q).pose m))
    rw [show set_pose g s a q
        = mark_transform_dirty g { s with pose := Function.update s.pose a q } a from rfl,
      hfields.2.2.2.1, hfields.2.2.1]
    show s.local_cache m = some (localM (Function.update s.pose a q m))
    rw [Function.update_apply, if_neg hna]
    exact hcache
  · intro m hm
    have hnoanc : ∀ k, iter_parent s k m ≠ some a := by
      intro k hk2
      have hkF : k < F := by
        by_contra hge
        have h0 := iter_parent_none_mono s F k m (hb m) (by omega)
        rw [h0] at hk2
        cases hk2
      have hreach := reach_down_of_iter_parent s hc k m a hk2
      have hreach' : ReachDown ({ s with pose := Function.update s.pose a q } :
          SceneState ι P M).children a m k := hreach
      have ht := (mark_dirty_reaches g { s with pose := Function.update s.pose a q } a m k
        hreach' (by omega)).1
      rw [show set_pose g s a q
          = mark_transform_dirty g { s with pose := Function.update s.pose a q } a
          from rfl] at hm
      rw [ht] at hm
      cases hm
    have hswd : s.world_dirty m = false := by
      by_contra h
      have ht : s.world_dirty m = true := by simpa using h
      have := mark_dirty_mono_world g { s with pose := Function.update s.pose a q } a m ht
      rw [show set_pose g s a q
          = mark_transform_dirty g { s with pose := Function.update s.pose a q } a
          from rfl] at hm
      rw [this] at hm
      cases hm
    have hcache := hcoh.2 m hswd
    have hpar : (set_pose g s a q).parent = s.parent := hfields.1
    have hws : world_spec localM F (set_pose g s a q) m = world_spec localM F s m := by
      refine world_spec_congr_chain localM s (set_pose g s a q) hpar F m ?_
      intro m' k hm'
      rw [show (set_pose g s a q).pose
          = ({ s with pose := Function.update s.pose a q} :
              SceneState ι P M).pose from hfields.2.2.1]
      show Function.update s.pose a q m' = s.pose m'
      rw [Function.update_apply, if_neg ?_]
      intro h
      subst h
      exact hnoanc k hm'
    show (set_pose g s a q).world_cache m = some (world_spec localM F (set_pose g s a q) m)
    rw [hws, show (set_pose g s a q).world_cache
        = ({ s with pose := Function.update s.pose a q } :
            SceneState ι P M).world_cache from hfields.2.2.2.2]
    exact hcache

/-- C2: in a link-consistent, cache-coherent scene with acyclic parent
chains, after an ancestor's pose is mutated through `set_pose`, a
subsequent `get_world_transform` on every descendant of that ancestor
returns exactly the world transform recomputed from the new poses (the
cache-free `world_spec` of the mutated state): no stale cached value
survives the dirtying mutation. -/
theorem get_world_transform_after_set_pose
    (s : SceneState ι P M) (F g fuel j k : ℕ) (a d : ι) (q : P)
    (hc : Consistent s) (hcoh : Coherent localM s F) (hb : ChainBound s F)
    (hgF : F ≤ g) (_hdesc : ReachDown s.children a d j)
    (hk : iter_parent s k d = none) (hkfuel : k ≤ fuel) :
    (get_world_transform localM fuel (set_pose g s a q) d).1
      = world_spec localM F (set_pose g s a q) d := by
  have hcoh' := coherent_set_pose localM s F g a q hc hcoh hb hgF
  have hpar' : (set_pose g s a q).parent = s.parent :=
    (mark_transform_dirty_fields g { s with pose := Function.update s.pose a q } a).1
  have hb' : ChainBound (set_pose g s a q) F := fun m => by
    rw [iter_parent_congr s _ hpar']
    exact hb m
  have hk' : iter_parent (set_pose g s a q) k d = none := by
    rw [iter_parent_congr s _ hpar']
    exact hk
  exact (get_world_transform_correct localM fuel (set_pose g s a q) d F k
    hcoh' hb' hk' hkfuel).1

end WithLocalM

/-- Witness for C2: the two-node scene, mutating the root's pose and
querying the child's world transform. -/
theorem get_world_transform_after_set_pose_witness :
    Consistent sceneTwo ∧ Coherent localMQ sceneTwo 2 ∧ ChainBound sceneTwo 2 ∧
    (2 : ℕ) ≤ 2 ∧ ReachDown sceneTwo.children 0 1 1 ∧
    iter_parent sceneTwo 2 1 = none ∧ (2 : ℕ) ≤ 2 ∧
    (get_world_transform localMQ 2 (set_pose 2 sceneTwo 0 ()) 1).1
      = world_spec localMQ 2 (set_pose 2 sceneTwo 0 ()) 1 := by
  have hreach : ReachDown sceneTwo.children 0 1 1 :=
    ReachDown.step (by decide) (ReachDown.refl 1)
  have hcons : Consistent sceneTwo := by unfold Consistent; decide
  have hbound : ChainBound sceneTwo 2 := by unfold ChainBound; decide
  have hcoh : Coherent localMQ sceneTwo 2 := ⟨by decide, by decide⟩
  refine ⟨hcons, hcoh, hbound, le_refl _, hreach, by decide, le_refl _, ?_⟩
  exact get_world_transform_after_set_pose localMQ sceneTwo 2 2 2 1 2 0 1 ()
    hcons hcoh hbound (le_refl _) hreach (by decide) (le_refl _)

end SceneGraphTheorems

section RotationTheorems

open Real

theorem vnorm_z_half_pi : vnorm ⟨0, 0, Real.pi / 2⟩ = Real.pi / 2 := by
  show Real.sqrt ((0 : ℝ) ^ 2 + (0 : ℝ) ^ 2 + (Real.pi / 2) ^ 2) = Real.pi / 2
  rw [show (0 : ℝ) ^ 2 + (0 : ℝ) ^ 2 + (Real.pi / 2) ^ 2 = (Real.pi / 2) ^ 2 from by ring]
  exact Real.sqrt_sq (by positivity)

theorem axis_angle_rot_z90 :
    axis_angle_to_rotation_matrix ⟨0, 0, Real.pi / 2⟩ = !![0, -1, 0; 1, 0, 0; 0, 0, 1] := by
  have hlt : ¬ (Real.pi / 2 < 1 / 10 ^ 10) := by
    have h3 := Real.pi_gt_three
    norm_num
    nlinarith
  simp only [axis_angle_to_rotation_matrix, vnorm_z_half_pi, if_neg hlt]
  have hne : Real.pi / 2 ≠ 0 := by positivity
  have haz : Real.pi / 2 / (Real.pi / 2) = 1 := div_self hne
  have hax : (0 : ℝ) / (Real.pi / 2) = 0 := zero_div _
  show (1 : Matrix (Fin 3) (Fin 3) ℝ)
      + Real.sin (Real.pi / 2) • !![0, -(Real.pi / 2 / (Real.pi / 2)), 0 / (Real.pi / 2);
          Real.pi / 2 / (Real.pi / 2), 0, -(0 / (Real.pi / 2));
          -(0 / (Real.pi / 2)), 0 / (Real.pi / 2), 0]
      + (1 - Real.cos (Real.pi / 2)) • (!![0, -(Real.pi / 2 / (Real.pi / 2)), 0 / (Real.pi / 2);
          Real.pi / 2 / (Real.pi / 2), 0, -(0 / (Real.pi / 2));
          -(0 / (Real.pi / 2)), 0 / (Real.pi / 2), 0]
        * !![0, -(Real.pi / 2 / (Real.pi / 2)), 0 / (Real.pi / 2);
            Real.pi / 2 / (Real.pi / 2), 0, -(0 / (Real.pi / 2));
            -(0 / (Real.pi / 2)), 0 / (Real.pi / 2), 0])
      = !![0, -1, 0; 1, 0, 0; 0, 0, 1]
  rw [haz, hax, Real.sin_pi_div_two, Real.cos_pi_div_two]
  ext i j
  fin_cases i <;> fin_cases j <;>
    simp [Matrix.mul_apply, Fin.sum_univ_three, Matrix.one_apply, Matrix.vecHead,
      Matrix.vecTail]

/-- C3: pose-to-matrix composition applies scale first, then rotation,
then translation (`T × R × S`): the transform composed from translation
(1,0,0), rotation 90° about Z, and scale (2,1,1) maps the homogeneous
point (1,0,0,1) to (1,2,0,1). -/
theorem compose_transform_trs_order :
    (compose_transform ⟨1, 0, 0⟩ ⟨0, 0, Real.pi / 2⟩ (some ⟨2, 1, 1⟩)).mulVec ![1, 0, 0, 1]
      = ![1, 2, 0, 1] := by
  have hr4 : rotation_to_matrix ⟨0, 0, Real.pi / 2⟩
      = !![0, -1, 0, 0; 1, 0, 0, 0; 0, 0, 1, 0; 0, 0, 0, 1] := by
    simp only [rotation_to_matrix, axis_angle_rot_z90]
    norm_num [Matrix.vecHead, Matrix.vecTail]
  show (translation_to_matrix ⟨1, 0, 0⟩ * rotation_to_matrix ⟨0, 0, Real.pi / 2⟩
      * scaling_to_matrix (some ⟨2, 1, 1⟩)).mulVec ![1, 0, 0, 1] = ![1, 2, 0, 1]
  rw [hr4]
  show ((!![1, 0, 0, (1 : ℝ); 0, 1, 0, 0; 0, 0, 1, 0; 0, 0, 0, 1]
      * !![0, -1, 0, 0; 1, 0, 0, 0; 0, 0, 1, 0; 0, 0, 0, 1])
      * !![(2 : ℝ), 0, 0, 0; 0, 1, 0, 0; 0, 0, 1, 0; 0, 0, 0, 1]).mulVec
        (![1, 0, 0, 1] : Fin 4 → ℝ)
      = (![1, 2, 0, 1] : Fin 4 → ℝ)
  ext i
  fin_cases i <;>
    simp [Matrix.mulVec, Matrix.mul_apply, Matrix.dotProduct, Fin.sum_univ_four]

theorem vnorm_unit_x : vnorm ⟨1, 0, 0⟩ = 1 := by
  show Real.sqrt ((1 : ℝ) ^ 2 + (0 : ℝ) ^ 2 + (0 : ℝ) ^ 2) = 1
  rw [show (1 : ℝ) ^ 2 + (0 : ℝ) ^ 2 + (0 : ℝ) ^ 2 = 1 from by norm_num]
  exact Real.sqrt_one

/-- C4 (amended): for every unit axis and every angle in `(0, π)` that
also clears the code's two degeneracy guards (`angle ≥ 1e-10` and
`sin(angle/2) ≥ 1e-10`), converting the axis-angle vector `axis·angle`
to a quaternion and back recovers the original axis and angle exactly
(in exact arithmetic) — in particular within the claimed `1e-4`
tolerance.  Below the guards the axis falls back to `+Z`. -/
theorem axis_angle_roundtrip (axis : Vec3 ℝ) (angle : ℝ)
    (hunit : vnorm axis = 1) (h0 : 0 < angle) (hpi : angle < Real.pi)
    (hg1 : 1 / 10 ^ 10 ≤ angle) (hg2 : 1 / 10 ^ 10 ≤ Real.sin (angle / 2)) :
    Quaternion.to_axis_angle (Quaternion.from_axis_angle_vector (smulV angle axis))
      = (axis, angle) := by
  have hsq : axis.x ^ 2 + axis.y ^ 2 + axis.z ^ 2 = 1 := by
    have h := hunit
    unfold vnorm at h
    exact Real.sqrt_eq_one.mp h
  have hvn : vnorm (smulV angle axis) = angle := by
    show Real.sqrt ((angle * axis.x) ^ 2 + (angle * axis.y) ^ 2 + (angle * axis.z) ^ 2)
      = angle
    rw [show (angle * axis.x) ^ 2 + (angle * axis.y) ^ 2 + (angle * axis.z) ^ 2
        = angle ^ 2 * (axis.x ^ 2 + axis.y ^ 2 + axis.z ^ 2) from by ring, hsq, mul_one]
    exact Real.sqrt_sq h0.le
  have hne : angle ≠ 0 := ne_of_gt h0
  have hb1 : ¬ (vnorm (smulV angle axis) < 1 / 10 ^ 10) := by
    rw [hvn]
    exact not_lt.mpr hg1
  have hfv : Quaternion.from_axis_angle_vector (smulV angle axis)
      = Quaternion.from_axis_angle axis angle := by
    simp only [Quaternion.from_axis_angle_vector, hvn, if_neg (not_lt.mpr hg1)]
    have hx : (smulV angle axis).x / angle = axis.x := by
      show angle * axis.x / angle = axis.x
      exact mul_div_cancel_left₀ _ hne
    have hy : (smulV angle axis).y / angle = axis.y := by
      show angle * axis.y / angle = axis.y
      exact mul_div_cancel_left₀ _ hne
    have hz : (smulV angle axis).z / angle = axis.z := by
      show angle * axis.z / angle = axis.z
      exact mul_div_cancel_left₀ _ hne
    rw [hx, hy, hz]
  have hb2 : ¬ (vnorm axis < 1 / 10 ^ 10) := by
    rw [hunit]
    norm_num
  have hfa : Quaternion.from_axis_angle axis angle
      = ⟨Real.cos (angle / 2), axis.x * Real.sin (angle / 2),
          axis.y * Real.sin (angle / 2), axis.z * Real.sin (angle / 2)⟩ := by
    simp only [Quaternion.from_axis_angle, hunit, div_one]
    rw [if_neg (show ¬ ((1 : ℝ) < 1 / 10 ^ 10) from by norm_num)]
  rw [hfv, hfa]
  have hqn : (⟨Real.cos (angle / 2), axis.x * Real.sin (angle / 2),
      axis.y * Real.sin (angle / 2), axis.z * Real.sin (angle / 2)⟩ :
        Quaternion ℝ).norm = 1 := by
    unfold Quaternion.norm
    show Real.sqrt (Real.cos (angle / 2) ^ 2 + (axis.x * Real.sin (angle / 2)) ^ 2
      + (axis.y * Real.sin (angle / 2)) ^ 2 + (axis.z * Real.sin (angle / 2)) ^ 2) = 1
    rw [show Real.cos (angle / 2) ^ 2 + (axis.x * Real.sin (angle / 2)) ^ 2
        + (axis.y * Real.sin (angle / 2)) ^ 2 + (axis.z * Real.sin (angle / 2)) ^ 2
        = Real.sin (angle / 2) ^ 2 * (axis.x ^ 2 + axis.y ^ 2 + axis.z ^ 2)
          + Real.cos (angle / 2) ^ 2 from by ring, hsq, mul_one,
      Real.sin_sq_add_cos_sq]
    exact Real.sqrt_one
  have hsinpos : (0 : ℝ) < Real.sin (angle / 2) := lt_of_lt_of_le (by norm_num) hg2
  have hclip : clip (Real.cos (angle / 2)) (-1) 1 = Real.cos (angle / 2) := by
    unfold clip
    rw [max_eq_right (Real.neg_one_le_cos _), min_eq_right (Real.cos_le_one _)]
  have harc : Real.arccos (Real.cos (angle / 2)) = angle / 2 :=
    Real.arccos_cos (by linarith) (by nlinarith [Real.pi_pos])
  have hang : 2 * (angle / 2) = angle := by ring
  have hb3 : ¬ (|Real.sin (angle / 2)| < 1 / 10 ^ 10) := by
    rw [abs_of_pos hsinpos]
    exact not_lt.mpr hg2
  simp only [Quaternion.to_axis_angle, hqn, if_neg (show ¬ ((1 : ℝ) < 1 / 10 ^ 10) from
    by norm_num), div_one, hclip, harc, hang, if_neg hb3]
  have hsne : Real.sin (angle / 2) ≠ 0 := ne_of_gt hsinpos
  rw [mul_div_assoc, div_self hsne, mul_one, mul_div_assoc, div_self hsne, mul_one,
    mul_div_assoc, div_self hsne, mul_one]

/-- Witness for C4 (amended): unit axis `(1,0,0)` with angle `π/2`. -/
theorem axis_angle_roundtrip_witness :
    vnorm ⟨1, 0, 0⟩ = 1 ∧ (0 : ℝ) < Real.pi / 2 ∧ Real.pi / 2 < Real.pi ∧
    (1 : ℝ) / 10 ^ 10 ≤ Real.pi / 2 ∧ (1 : ℝ) / 10 ^ 10 ≤ Real.sin (Real.pi / 2 / 2) ∧
    Quaternion.to_axis_angle (Quaternion.from_axis_angle_vector
        (smulV (Real.pi / 2) ⟨1, 0, 0⟩)) = (⟨1, 0, 0⟩, Real.pi / 2) := by
  have h1 : (0 : ℝ) < Real.pi / 2 := by positivity
  have h2 : Real.pi / 2 < Real.pi := by linarith [Real.pi_pos]
  have h3 : (1 : ℝ) / 10 ^ 10 ≤ Real.pi / 2 := by
    nlinarith [Real.pi_gt_three]
  have h4 : (1 : ℝ) / 10 ^ 10 ≤ Real.sin (Real.pi / 2 / 2) := by
    rw [show Real.pi / 2 / 2 = Real.pi / 4 from by ring, Real.sin_pi_div_four]
    have hs : (1 : ℝ) ≤ Real.sqrt 2 := by
      rw [show (1 : ℝ) = Real.sqrt 1 from Real.sqrt_one.symm]
      exact Real.sqrt_le_sqrt (by norm_num)
    nlinarith
  exact ⟨vnorm_unit_x, h1, h2, h3, h4,
    axis_angle_roundtrip ⟨1, 0, 0⟩ (Real.pi / 2) vnorm_unit_x h1 h2 h3 h4⟩

/-- Counterexample for C4 as stated: at angle `1e-12 ∈ (0, π)` with unit
axis `(1,0,0)`, the conversion collapses to the identity quaternion and
the recovered axis is the `+Z` fallback, off from the original axis by
1 — far beyond the `1e-4` tolerance. -/
theorem axis_angle_roundtrip_counterexample :
    vnorm ⟨1, 0, 0⟩ = 1 ∧ (0 : ℝ) < 1 / 10 ^ 12 ∧ (1 : ℝ) / 10 ^ 12 < Real.pi ∧
    (Quaternion.to_axis_angle (Quaternion.from_axis_angle_vector
        (smulV (1 / 10 ^ 12) ⟨1, 0, 0⟩))).1 = ⟨0, 0, 1⟩ ∧
    1 / 10 ^ 4 < |((Quaternion.to_axis_angle (Quaternion.from_axis_angle_vector
        (smulV (1 / 10 ^ 12) ⟨1, 0, 0⟩))).1).x - 1| := by
  have hsm : smulV ((1 : ℝ) / 10 ^ 12) ⟨1, 0, 0⟩ = ⟨1 / 10 ^ 12, 0, 0⟩ := by
    simp [smulV]
  have hvn : vnorm ⟨(1 : ℝ) / 10 ^ 12, 0, 0⟩ = 1 / 10 ^ 12 := by
    show Real.sqrt (((1 : ℝ) / 10 ^ 12) ^ 2 + (0 : ℝ) ^ 2 + (0 : ℝ) ^ 2) = 1 / 10 ^ 12
    rw [show ((1 : ℝ) / 10 ^ 12) ^ 2 + (0 : ℝ) ^ 2 + (0 : ℝ) ^ 2
        = ((1 : ℝ) / 10 ^ 12) ^ 2 from by ring]
    exact Real.sqrt_sq (by norm_num)
  have hfv : Quaternion.from_axis_angle_vector (smulV ((1 : ℝ) / 10 ^ 12) ⟨1, 0, 0⟩)
      = Quaternion.identity := by
    rw [hsm]
    simp only [Quaternion.from_axis_angle_vector, hvn]
    rw [if_pos (by norm_num)]
  have hin : Quaternion.identity.norm = 1 := by
    unfold Quaternion.norm Quaternion.identity
    show Real.sqrt ((1 : ℝ) ^ 2 + (0 : ℝ) ^ 2 + (0 : ℝ) ^ 2 + (0 : ℝ) ^ 2) = 1
    rw [show (1 : ℝ) ^ 2 + (0 : ℝ) ^ 2 + (0 : ℝ) ^ 2 + (0 : ℝ) ^ 2 = 1 from by norm_num]
    exact Real.sqrt_one
  have hclip : clip ((1 : ℝ)) (-1) 1 = 1 := by
    unfold clip
    rw [max_eq_right (by norm_num : (-1 : ℝ) ≤ 1), min_self]
  have hta : Quaternion.to_axis_angle Quaternion.identity = (⟨0, 0, 1⟩, 0) := by
    simp only [Quaternion.to_axis_angle, hin,
      if_neg (show ¬ ((1 : ℝ) < 1 / 10 ^ 10) from by norm_num), div_one]
    show (if |Real.sin (2 * Real.arccos (clip (1 : ℝ) (-1) 1) / 2)| < 1 / 10 ^ 10
        then ((⟨0, 0, 1⟩ : Vec3 ℝ), 2 * Real.arccos (clip (1 : ℝ) (-1) 1))
        else _) = ((⟨0, 0, 1⟩ : Vec3 ℝ), 0)
    rw [hclip, Real.arccos_one, mul_zero]
    norm_num
  rw [hfv, hta]
  refine ⟨vnorm_unit_x, by norm_num, by nlinarith [Real.pi_gt_three], rfl, ?_⟩
  norm_num

theorem normalize_of_norm_one (q : Quaternion ℝ) (h : q.norm = 1) :
    q.normalize = q := by
  unfold Quaternion.normalize
  rw [h, if_neg (show ¬ ((1 : ℝ) < 1 / 10 ^ 10) from by norm_num)]
  cases q
  simp

theorem negate_norm (q : Quaternion ℝ) : q.negate.norm = q.norm := by
  unfold Quaternion.norm Quaternion.negate
  simp [neg_sq]

theorem scale_one_add_scale_zero (a b : Quaternion ℝ) :
    (Quaternion.scale (1 - 0) a).add (Quaternion.scale 0 b) = a := by
  cases a
  simp [Quaternion.scale, Quaternion.add]

theorem scale_zero_add_scale_one (a b : Quaternion ℝ) :
    (Quaternion.scale (1 - 1) a).add (Quaternion.scale 1 b) = b := by
  cases b
  simp [Quaternion.scale, Quaternion.add]

theorem scale_one_add_scale_zero' (a b : Quaternion ℝ) :
    (Quaternion.scale 1 a).add (Quaternion.scale 0 b) = a := by
  cases a
  simp [Quaternion.scale, Quaternion.add]

theorem scale_zero_add_scale_one' (a b : Quaternion ℝ) :
    (Quaternion.scale 0 a).add (Quaternion.scale 1 b) = b := by
  cases b
  simp [Quaternion.scale, Quaternion.add]

theorem clip_zero_unit : clip (0 : ℝ) 0 1 = 0 := by
  unfold clip
  norm_num

theorem clip_one_unit : clip (1 : ℝ) 0 1 = 1 := by
  unfold clip
  norm_num

/-- C5 (amended): for all unit quaternions, `slerp q1 q2 0 = q1` exactly;
`slerp q1 q2 1 = q2` exactly when `dot(q1,q2) ≥ 0`, and `= -q2` (the
same rotation, opposite sign) when `dot(q1,q2) < 0`, because the
shorter-arc correction negates `q2` before interpolating. -/
theorem slerp_endpoints (q1 q2 : Quaternion ℝ) (h1 : q1.norm = 1) (h2 : q2.norm = 1) :
    slerp q1 q2 0 = q1 ∧
    (0 ≤ q1.dot q2 → slerp q1 q2 1 = q2) ∧
    (q1.dot q2 < 0 → slerp q1 q2 1 = q2.negate) := by
  have key : ∀ (q2' : Quaternion ℝ) (d : ℝ), q2'.norm = 1 → 0 ≤ d →
      (if 9995 / 10000 < d then
        ((Quaternion.scale (1 - clip 0 0 1) q1).add
          (Quaternion.scale (clip 0 0 1) q2')).normalize
      else
        ((Quaternion.scale (Real.cos (Real.arccos (clip d (-1) 1) * clip 0 0 1)
            - d * Real.sin (Real.arccos (clip d (-1) 1) * clip 0 0 1)
              / Real.sin (Real.arccos (clip d (-1) 1))) q1).add
          (Quaternion.scale (Real.sin (Real.arccos (clip d (-1) 1) * clip 0 0 1)
            / Real.sin (Real.arccos (clip d (-1) 1))) q2')).normalize) = q1 := by
    intro q2' d _ _
    rw [clip_zero_unit]
    by_cases hbig : (9995 / 10000 : ℝ) < d
    · rw [if_pos hbig, scale_one_add_scale_zero]
      exact normalize_of_norm_one q1 h1
    · rw [if_neg hbig]
      have hs1 : Real.cos (Real.arccos (clip d (-1) 1) * 0)
          - d * Real.sin (Real.arccos (clip d (-1) 1) * 0)
            / Real.sin (Real.arccos (clip d (-1) 1)) = 1 := by
        rw [mul_zero, Real.cos_zero, Real.sin_zero]
        simp
      have hs2 : Real.sin (Real.arccos (clip d (-1) 1) * 0)
          / Real.sin (Real.arccos (clip d (-1) 1)) = 0 := by
        rw [mul_zero, Real.sin_zero, zero_div]
      rw [hs1, hs2, scale_one_add_scale_zero']
      exact normalize_of_norm_one q1 h1
  have key1 : ∀ (q2' : Quaternion ℝ) (d : ℝ), q2'.norm = 1 → 0 ≤ d → d ≤ 9995 / 10000 →
      (if 9995 / 10000 < d then
        ((Quaternion.scale (1 - clip 1 0 1) q1).add
          (Quaternion.scale (clip 1 0 1) q2')).normalize
      else
        ((Quaternion.scale (Real.cos (Real.arccos (clip d (-1) 1) * clip 1 0 1)
            - d * Real.sin (Real.arccos (clip d (-1) 1) * clip 1 0 1)
              / Real.sin (Real.arccos (clip d (-1) 1))) q1).add
          (Quaternion.scale (Real.sin (Real.arccos (clip d (-1) 1) * clip 1 0 1)
            / Real.sin (Real.arccos (clip d (-1) 1))) q2')).normalize) = q2' := by
    intro q2' d hq2 hd0 hdle
    rw [clip_one_unit, if_neg (not_lt.mpr hdle)]
    have hclipd : clip d (-1) 1 = d := by
      unfold clip
      rw [max_eq_right (by linarith), min_eq_right (by linarith)]
    rw [hclipd]
    have hcos : Real.cos (Real.arccos d) = d := Real.cos_arccos (by linarith) (by linarith)
    have hpos : 0 < Real.arccos d := Real.arccos_pos.mpr (by linarith)
    have hlt : Real.arccos d < Real.pi := by
      have := Real.arccos_le_pi_div_two.mpr hd0
      linarith [Real.pi_pos]
    have hsin : 0 < Real.sin (Real.arccos d) := Real.sin_pos_of_pos_of_lt_pi hpos hlt
    have hs1 : Real.cos (Real.arccos d * 1)
        - d * Real.sin (Real.arccos d * 1) / Real.sin (Real.arccos d) = 0 := by
      rw [mul_one, hcos, mul_div_assoc, div_self (ne_of_gt hsin), mul_one, sub_self]
    have hs2 : Real.sin (Real.arccos d * 1) / Real.sin (Real.arccos d) = 1 := by
      rw [mul_one, div_self (ne_of_gt hsin)]
    rw [hs1, hs2, scale_zero_add_scale_one']
    exact normalize_of_norm_one q2' hq2
  refine ⟨?_, ?_, ?_⟩
  · show slerp q1 q2 0 = q1
    unfold slerp
    by_cases hd0 : q1.dot q2 < 0
    · simp only [if_pos hd0]
      exact key q2.negate (-(q1.dot q2)) (h2 ▸ negate_norm q2) (by linarith)
    · simp only [if_neg hd0]
      exact key q2 (q1.dot q2) h2 (by linarith [not_lt.mp hd0])
  · intro hdot
    have hd0 : ¬ q1.dot q2 < 0 := not_lt.mpr hdot
    unfold slerp
    simp only [if_neg hd0]
    by_cases hbig : (9995 / 10000 : ℝ) < q1.dot q2
    · rw [if_pos hbig, clip_one_unit, show (1 : ℝ) - 1 = 0 from by norm_num]
      rw [show Quaternion.scale 0 q1 = Quaternion.scale (1 - 1) q1 from by norm_num,
        scale_zero_add_scale_one]
      exact normalize_of_norm_one q2 h2
    · exact key1 q2 (q1.dot q2) h2 hdot (not_lt.mp hbig)
  · intro hdot
    unfold slerp
    simp only [if_pos hdot]
    by_cases hbig : (9995 / 10000 : ℝ) < -(q1.dot q2)
    · rw [if_pos hbig, clip_one_unit, show (1 : ℝ) - 1 = 0 from by norm_num]
      rw [show Quaternion.scale 0 q1 = Quaternion.scale (1 - 1) q1 from by norm_num,
        scale_zero_add_scale_one]
      exact normalize_of_norm_one q2.negate (h2 ▸ negate_norm q2)
    · exact key1 q2.negate (-(q1.dot q2)) (h2 ▸ negate_norm q2) (by linarith)
        (not_lt.mp hbig)

/-- Witness for C5 (amended): the identity quaternion at both ends. -/
theorem slerp_endpoints_witness :
    (⟨1, 0, 0, 0⟩ : Quaternion ℝ).norm = 1 ∧
    slerp ⟨1, 0, 0, 0⟩ ⟨1, 0, 0, 0⟩ 0 = ⟨1, 0, 0, 0⟩ ∧
    ((0 : ℝ) ≤ Quaternion.dot ⟨1, 0, 0, 0⟩ ⟨1, 0, 0, 0⟩ →
      slerp ⟨1, 0, 0, 0⟩ ⟨1, 0, 0, 0⟩ 1 = ⟨1, 0, 0, 0⟩) := by
  have hn : (⟨1, 0, 0, 0⟩ : Quaternion ℝ).norm = 1 := by
    unfold Quaternion.norm
    show Real.sqrt ((1 : ℝ) ^ 2 + (0 : ℝ) ^ 2 + (0 : ℝ) ^ 2 + (0 : ℝ) ^ 2) = 1
    rw [show (1 : ℝ) ^ 2 + (0 : ℝ) ^ 2 + (0 : ℝ) ^ 2 + (0 : ℝ) ^ 2 = 1 from by norm_num]
    exact Real.sqrt_one
  have h := slerp_endpoints ⟨1, 0, 0, 0⟩ ⟨1, 0, 0, 0⟩ hn hn
  exact ⟨hn, h.1, h.2.1⟩

/-- Counterexample for C5 as stated: `q1 = (1,0,0,0)`, `q2 = (-1,0,0,0)`
are unit quaternions with `dot = -1 < 0`; `slerp q1 q2 1` is `(1,0,0,0)`,
which is not `q2` (it is `-q2`). -/
theorem slerp_endpoints_counterexample :
    (⟨1, 0, 0, 0⟩ : Quaternion ℝ).norm = 1 ∧
    (⟨-1, 0, 0, 0⟩ : Quaternion ℝ).norm = 1 ∧
    slerp ⟨1, 0, 0, 0⟩ ⟨-1, 0, 0, 0⟩ 1 = ⟨1, 0, 0, 0⟩ ∧
    (⟨1, 0, 0, 0⟩ : Quaternion ℝ) ≠ ⟨-1, 0, 0, 0⟩ := by
  have hn1 : (⟨1, 0, 0, 0⟩ : Quaternion ℝ).norm = 1 := by
    unfold Quaternion.norm
    show Real.sqrt ((1 : ℝ) ^ 2 + (0 : ℝ) ^ 2 + (0 : ℝ) ^ 2 + (0 : ℝ) ^ 2) = 1
    rw [show (1 : ℝ) ^ 2 + (0 : ℝ) ^ 2 + (0 : ℝ) ^ 2 + (0 : ℝ) ^ 2 = 1 from by norm_num]
    exact Real.sqrt_one
  have hn2 : (⟨-1, 0, 0, 0⟩ : Quaternion ℝ).norm = 1 := by
    unfold Quaternion.norm
    show Real.sqrt ((-1 : ℝ) ^ 2 + (0 : ℝ) ^ 2 + (0 : ℝ) ^ 2 + (0 : ℝ) ^ 2) = 1
    rw [show (-1 : ℝ) ^ 2 + (0 : ℝ) ^ 2 + (0 : ℝ) ^ 2 + (0 : ℝ) ^ 2 = 1 from by norm_num]
    exact Real.sqrt_one
  have hdot : Quaternion.dot ⟨1, 0, 0, 0⟩ ⟨-1, 0, 0, 0⟩ = -1 := by
    unfold Quaternion.dot
    norm_num
  have hneg : Quaternion.negate (⟨-1, 0, 0, 0⟩ : Quaternion ℝ) = ⟨1, 0, 0, 0⟩ := by
    unfold Quaternion.negate
    norm_num
  have hs : slerp ⟨1, 0, 0, 0⟩ ⟨-1, 0, 0, 0⟩ 1 = ⟨1, 0, 0, 0⟩ := by
    unfold slerp
    rw [hdot]
    simp only [if_pos (show (-1 : ℝ) < 0 from by norm_num), neg_neg, hneg, clip_one_unit]
    rw [if_pos (show (9995 / 10000 : ℝ) < 1 from by norm_num), scale_zero_add_scale_one]
    exact normalize_of_norm_one _ hn1
  refine ⟨hn1, hn2, hs, ?_⟩
  intro h
  have := congrArg Quaternion.w h
  norm_num at this

end RotationTheorems

end Rubiks

